import Mathlib

/-!
Verification development for the `DataTable` module (src/src/DataTable.ts).

The TypeScript source is shallowly embedded below.  Modelling conventions:

* JavaScript numbers are modelled exactly: `JSNum` is NaN, ±Infinity, or a
  finite value carried as a rational (`ℚ`).  All string-to-number parses in the
  source produce digit-wise exact values, so no IEEE rounding is involved in
  any claim; overflow of decimal literals to Infinity is not modelled (the
  claims never exercise literals beyond double range).
* A JavaScript `Date` is determined by its UTC epoch milliseconds; the source
  only ever constructs dates via `Date.UTC(y, m, d, h, mi, s, ms)` with the
  captured regex groups, so a date value is modelled by that argument tuple
  (`Value.vDate`).  Serialization (`toISOString`) is given for in-range
  normalized tuples, which are the only ones arising in the round-trip claims.
* Rows are open string-keyed maps, modelled as ordered association lists;
  an absent key plays the role of JavaScript `undefined`, `Value.vNull` is
  JavaScript `null`.
* The byte-level collaborators (fs, xml-writer, elementtree, xlsx) are opaque
  codecs per the design: the markup adapter is modelled at the level of the
  element tree (`XmlDoc`), the structured-text adapter at the level of the
  parsed generic tree (`JVal`).
-/

namespace DataTable

/-! ## Characters and digit strings -/

/-- JavaScript WhiteSpace / LineTerminator characters recognised when a string
is trimmed by `ToNumber` (ASCII subset; the claims use only ASCII). -/
def isJSSpace (c : Char) : Bool :=
  c = ' ' || c = '\t' || c = '\n' || c = '\x0b' || c = '\x0c' || c = '\r'

/-- ASCII lower-casing, as done by `String.prototype.toLowerCase` on ASCII. -/
def lowChar (c : Char) : Char :=
  if 'A' ≤ c ∧ c ≤ 'Z' then Char.ofNat (c.toNat + 32) else c

/-- Decimal digit character for `n < 10`. -/
def digitChar : Nat → Char
  | 0 => '0' | 1 => '1' | 2 => '2' | 3 => '3' | 4 => '4'
  | 5 => '5' | 6 => '6' | 7 => '7' | 8 => '8' | 9 => '9'
  | _ => '*'

/-- Numeric value of a decimal digit character. -/
def digitVal (c : Char) : Nat := c.toNat - 48

/-- Fuel-driven decimal printing of a natural number (fuel keeps the
definition structurally recursive so the kernel can evaluate it). -/
def natDigitsAux : Nat → Nat → List Char
  | 0, _ => []
  | fuel + 1, n =>
    if n < 10 then [digitChar n]
    else natDigitsAux fuel (n / 10) ++ [digitChar (n % 10)]

/-- Decimal digit string of a natural number (no sign, no leading zeros,
`0 ↦ "0"`). -/
def natDigits (n : Nat) : List Char := natDigitsAux (n + 1) n

/-- Value of a decimal digit string, as computed by JavaScript unary `+` on a
string of digits (also: the value of a regex capture group of digits; the
empty capture yields `0`, matching `+"" === 0`). -/
def natOfDigits (l : List Char) : Nat :=
  l.foldl (fun a c => 10 * a + digitVal c) 0

/-- Left-pad a digit string with `'0'` to width `k`. -/
def padZeros (k : Nat) (ds : List Char) : List Char :=
  List.replicate (k - ds.length) '0' ++ ds

/-- Trim JavaScript whitespace from both ends. -/
def trimL (l : List Char) : List Char :=
  ((l.dropWhile isJSSpace).reverse.dropWhile isJSSpace).reverse

/-! ## JavaScript numbers -/

/-- A JavaScript number: NaN, a signed infinity, or a finite value (modelled
exactly as a rational). -/
inductive JSNum where
  | nan
  | inf (pos : Bool)
  | fin (q : ℚ)
  deriving DecidableEq

/-- JavaScript subtraction on numbers (NaN-propagating, `∞ - ∞ = NaN`). -/
def JSNum.sub : JSNum → JSNum → JSNum
  | .nan, _ => .nan
  | _, .nan => .nan
  | .inf p, .inf q => if p = q then .nan else .inf p
  | .inf p, .fin _ => .inf p
  | .fin _, .inf p => .inf !p
  | .fin a, .fin b => .fin (a - b)

/-- JavaScript `x + 1`. -/
def JSNum.addOne : JSNum → JSNum
  | .nan => .nan
  | .inf p => .inf p
  | .fin a => .fin (a + 1)

/-- JavaScript `x >= 0` (false on NaN). -/
def JSNum.geZero : JSNum → Bool
  | .nan => false
  | .inf p => p
  | .fin a => decide (0 ≤ a)

/-- JavaScript unary negation. -/
def JSNum.neg : JSNum → JSNum
  | .nan => .nan
  | .inf p => .inf !p
  | .fin q => .fin (-q)

/-! ## The ECMAScript string numeric grammars

`decUnsigned`/`decSigned` parse the longest prefix of the input that is a
`StrDecimalLiteral` (optionally signed, including `Infinity`), returning its
value and the unconsumed rest.  `parseFloatL` is `parseFloat`; `toNumberL` is
`ToNumber` applied to a string (unary `+`), which additionally accepts hex,
binary and octal literals and requires the whole trimmed string to match. -/

/-- Consume an optional exponent part (`e`/`E`, optional sign, digits); if no
digit follows the marker the exponent is not consumed (longest-valid-prefix
semantics of the grammar). -/
def withExp (q : ℚ) (l : List Char) : JSNum × List Char :=
  match l with
  | c :: r =>
    if c = 'e' ∨ c = 'E' then
      let sr : Int × List Char :=
        match r with
        | '+' :: t => (1, t)
        | '-' :: t => (-1, t)
        | t => (1, t)
      let es := sr.2.takeWhile Char.isDigit
      if es.isEmpty then (.fin q, l)
      else (.fin (q * (10 : ℚ) ^ (sr.1 * (natOfDigits es : Int))), sr.2.dropWhile Char.isDigit)
    else (.fin q, l)
  | [] => (.fin q, [])

/-- Longest-prefix parse of an unsigned `StrDecimalLiteral` (or `Infinity`). -/
def decUnsigned (l : List Char) : Option (JSNum × List Char) :=
  if l.take 8 = "Infinity".data then some (.inf true, l.drop 8)
  else
    let ds := l.takeWhile Char.isDigit
    let r1 := l.dropWhile Char.isDigit
    if ds.isEmpty then
      match r1 with
      | '.' :: r2 =>
        let fs := r2.takeWhile Char.isDigit
        if fs.isEmpty then none
        else some (withExp ((natOfDigits fs : ℚ) / 10 ^ fs.length) (r2.dropWhile Char.isDigit))
      | _ => none
    else
      match r1 with
      | '.' :: r2 =>
        let fs := r2.takeWhile Char.isDigit
        some (withExp ((natOfDigits ds : ℚ) + (natOfDigits fs : ℚ) / 10 ^ fs.length)
              (r2.dropWhile Char.isDigit))
      | _ => some (withExp (natOfDigits ds : ℚ) r1)

/-- Longest-prefix parse of a signed `StrDecimalLiteral`. -/
def decSigned (l : List Char) : Option (JSNum × List Char) :=
  match l with
  | '+' :: r => decUnsigned r
  | '-' :: r => (decUnsigned r).map (fun vr => (vr.1.neg, vr.2))
  | _ => decUnsigned l

/-- JavaScript `parseFloat` on a string: skip leading whitespace, take the
longest decimal-literal prefix, NaN when there is none. -/
def parseFloatL (l : List Char) : JSNum :=
  match decSigned (l.dropWhile isJSSpace) with
  | some (v, _) => v
  | none => .nan

def isHexDigit (c : Char) : Bool :=
  c.isDigit || ('a' ≤ c && c ≤ 'f') || ('A' ≤ c && c ≤ 'F')

def hexDigitVal (c : Char) : Nat :=
  if c.isDigit then c.toNat - 48
  else if 'a' ≤ c then c.toNat - 87
  else c.toNat - 55

def baseVal (b : Nat) (l : List Char) : Nat :=
  l.foldl (fun a c => b * a + hexDigitVal c) 0

/-- Whole-string decimal parse: the entire input must be one literal. -/
def decFull (t : List Char) : JSNum :=
  match decSigned t with
  | some (v, []) => v
  | _ => .nan

/-- ECMAScript `ToNumber` on a string (JavaScript unary `+str`): whitespace is
trimmed from both ends, the empty string is `0`, a `0x`/`0b`/`0o` prefix
selects the corresponding integer literal, otherwise the whole string must be
a signed decimal literal. -/
def toNumberL (t0 : List Char) : JSNum :=
  match trimL t0 with
  | [] => .fin 0
  | t@('0' :: c :: rest) =>
    if c = 'x' ∨ c = 'X' then
      if rest.isEmpty then .nan
      else if rest.all isHexDigit then .fin (baseVal 16 rest) else .nan
    else if c = 'b' ∨ c = 'B' then
      if rest.isEmpty then .nan
      else if rest.all (fun d => d == '0' || d == '1') then .fin (baseVal 2 rest) else .nan
    else if c = 'o' ∨ c = 'O' then
      if rest.isEmpty then .nan
      else if rest.all (fun d => ('0' ≤ d && d ≤ '7')) then .fin (baseVal 8 rest) else .nan
    else decFull t
  | t => decFull t

/-! ## Printing numbers (`Number.prototype.toString`)

A finite JavaScript number always has a terminating decimal expansion (doubles
are dyadic rationals); `findDenAux` finds the number of fractional digits and
`finToChars` prints sign, integer part and fractional part.  (JavaScript
switches to exponent notation for very large/small magnitudes; the printed
string differs there but denotes the same value, and no claim depends on the
exact spelling of such numbers.) -/

/-- Least `k` (starting from `i`, at most `fuel` more) with `q * 10^k` an
integer. -/
def findDenAux (q : ℚ) : Nat → Nat → Option Nat
  | 0, _ => none
  | fuel + 1, k => if (q * 10 ^ k).den = 1 then some k else findDenAux q fuel (k + 1)

/-- A rational has a terminating decimal expansion of at most 1200 fractional
digits (every double does). -/
def printableQ (q : ℚ) : Bool := (findDenAux q 1200 0).isSome

/-- Decimal rendering of a finite JavaScript number. -/
def finToChars (q : ℚ) : List Char :=
  match findDenAux q 1200 0 with
  | some k =>
    let sign : List Char := if q < 0 then ['-'] else []
    let n : Nat := (q * 10 ^ k).num.natAbs
    if k = 0 then sign ++ natDigits n
    else sign ++ natDigits (n / 10 ^ k) ++ '.' :: padZeros k (natDigits (n % 10 ^ k))
  | none => ['?']

/-- `String(n)` for a JavaScript number. -/
def numToString : JSNum → String
  | .nan => "NaN"
  | .inf true => "Infinity"
  | .inf false => "-Infinity"
  | .fin q => String.mk (finToChars q)

/-! ## Values -/

/-- A cell value.  `vNull` is JavaScript `null`; absence of a key plays the
role of `undefined`.  `vDate y mo d h mi s ms` is the date object
`new Date(Date.UTC(y, mo, d, h, mi, s, ms))`, carried as its constructor
arguments (`mo` is the 0-based month, an `Int` because the source computes it
as a capture group minus one).  `vTagged t v` is the plain object
`{type: t, value: v}` used by the markup adapter. -/
inductive Value where
  | vNull
  | vBool (b : Bool)
  | vNum (n : JSNum)
  | vStr (s : String)
  | vDate (y : Nat) (mo : Int) (d h mi s ms : Nat)
  | vTagged (type : String) (val : Value)
  deriving DecidableEq

/-- `toISOString` of an in-range normalized date tuple:
`YYYY-MM-DDTHH:MM:SS.mmmZ` (the only tuples serialized in this development;
JavaScript would first normalize an out-of-range tuple through epoch
milliseconds). -/
def toISOChars (y : Nat) (mo : Int) (d h mi s ms : Nat) : List Char :=
  padZeros 4 (natDigits y) ++ '-' :: padZeros 2 (natDigits (mo + 1).toNat) ++
  '-' :: padZeros 2 (natDigits d) ++ 'T' :: padZeros 2 (natDigits h) ++
  ':' :: padZeros 2 (natDigits mi) ++ ':' :: padZeros 2 (natDigits s) ++
  '.' :: padZeros 3 (natDigits ms) ++ ['Z']

/-- `String(date)`: a locale string at *seconds* granularity ("Wed Jan 01
2020 03:04:05 GMT+0000 ..."); modelled as a canonical rendering of the UTC
fields with the milliseconds dropped, so that — as in JavaScript — two dates
collide as memo keys exactly when they agree up to seconds. -/
def dateKeyChars (y : Nat) (mo : Int) (d h mi s : Nat) : List Char :=
  padZeros 4 (natDigits y) ++ '-' :: padZeros 2 (natDigits (mo + 1).toNat) ++
  '-' :: padZeros 2 (natDigits d) ++ ' ' :: padZeros 2 (natDigits h) ++
  ':' :: padZeros 2 (natDigits mi) ++ ':' :: padZeros 2 (natDigits s)

/-- JavaScript `String(v)`, used when a value becomes an object property key
(the memo table of `lookup`).  A date renders as its locale string, which
has only seconds granularity (dates differing only in milliseconds collide);
a tagged object renders as `"[object Object]"` exactly as in JavaScript. -/
def jsToString : Value → String
  | .vNull => "null"
  | .vBool true => "true"
  | .vBool false => "false"
  | .vNum n => numToString n
  | .vStr s => s
  | .vDate y mo d h mi s _ => String.mk (dateKeyChars y mo d h mi s)
  | .vTagged _ _ => "[object Object]"

/-! ## The Value Inference Engine (`parseBooleans`, `parseNumbers`,
`parseDates`, `parseValue`, `parseXmlValue`) -/

/-- Case-insensitive (ASCII) equality of a string with a lowercase pattern. -/
def ciEq : List Char → List Char → Bool
  | [], [] => true
  | c :: l, d :: m => lowChar c = d && ciEq l m
  | _, _ => false

/-- `DataTable.parseBooleans`: test `/^(?:true|false)$/i`; on a match the
result is `str.toLowerCase() === 'true'`; otherwise `null` (`none`). -/
def parseBooleans (s : String) : Option Bool :=
  if ciEq s.data "true".data then some true
  else if ciEq s.data "false".data then some false
  else none

/-- `DataTable.parseNumbers`: the input here is always a string (never an
array, so the `Array.isArray` guard is vacuous); the value is accepted exactly
when `(+str - parseFloat(str) + 1) >= 0`, and the result is `+str`. -/
def parseNumbers (s : String) : Option JSNum :=
  if (((toNumberL s.data).sub (parseFloatL s.data)).addOne).geZero
  then some (toNumberL s.data) else none

/-- Consume exactly `k` decimal digits. -/
def takeD : Nat → List Char → Option (List Char × List Char)
  | 0, l => some ([], l)
  | k + 1, c :: l => if c.isDigit then (takeD k l).map (fun p => (c :: p.1, p.2)) else none
  | _ + 1, [] => none

/-- Consume one expected character. -/
def expectChar (c : Char) : List Char → Option (List Char)
  | d :: l => if d = c then some l else none
  | [] => none

/-- One `(\d{k})sep` step of the timestamp regex: exactly `k` digits followed
by the separator. -/
def takeGroup (k : Nat) (sep : Char) (l : List Char) :
    Option (List Char × List Char) :=
  (takeD k l).bind fun p => (expectChar sep p.2).map fun r => (p.1, r)

/-- The source's timestamp regex
`/^(\d{4})-(\d{2})-(\d{2})T(\d{2}):(\d{2}):(\d{2})\.*(\d*)Z$/`, returning the
numeric values of the seven capture groups (`\.*` is *zero or more* dots;
group 7 may be empty, in which case its value is 0 as `+"" === 0`). -/
def matchTs (l : List Char) : Option (Nat × Nat × Nat × Nat × Nat × Nat × Nat) :=
  (takeGroup 4 '-' l).bind fun p1 =>
  (takeGroup 2 '-' p1.2).bind fun p2 =>
  (takeGroup 2 'T' p2.2).bind fun p3 =>
  (takeGroup 2 ':' p3.2).bind fun p4 =>
  (takeGroup 2 ':' p4.2).bind fun p5 =>
  (takeD 2 p5.2).bind fun p6 =>
  let lf := p6.2.dropWhile (fun c => c = '.')
  let g7 := lf.takeWhile Char.isDigit
  match lf.dropWhile Char.isDigit with
  | ['Z'] => some (natOfDigits p1.1, natOfDigits p2.1, natOfDigits p3.1,
      natOfDigits p4.1, natOfDigits p5.1, natOfDigits p6.1, natOfDigits g7)
  | _ => none

/-- `DataTable.parseDates`: on a regex match, the value is
`new Date(Date.UTC(+g1, +g2 - 1, +g3, +g4, +g5, +g6, +g7))`. -/
def parseDates (s : String) : Option Value :=
  (matchTs s.data).map fun g =>
    .vDate g.1 ((g.2.1 : Int) - 1) g.2.2.1 g.2.2.2.1 g.2.2.2.2.1 g.2.2.2.2.2.1 g.2.2.2.2.2.2

/-- Modelled from the spec: the timestamp pattern as claim C3 states it,
`^(\d{4})-(\d{2})-(\d{2})T(\d{2}):(\d{2}):(\d{2})\.?(\d*)Z$` with *at most one*
optional dot before the fraction (the source has `\.*`).  Used only to compare
the claimed pattern against the source's. -/
def specMatchTs (l : List Char) :
    Option (Nat × Nat × Nat × Nat × Nat × Nat × Nat) :=
  (takeGroup 4 '-' l).bind fun p1 =>
  (takeGroup 2 '-' p1.2).bind fun p2 =>
  (takeGroup 2 'T' p2.2).bind fun p3 =>
  (takeGroup 2 ':' p3.2).bind fun p4 =>
  (takeGroup 2 ':' p4.2).bind fun p5 =>
  (takeD 2 p5.2).bind fun p6 =>
  let lf := match p6.2 with
    | '.' :: r => r
    | l6 => l6
  let g7 := lf.takeWhile Char.isDigit
  match lf.dropWhile Char.isDigit with
  | ['Z'] => some (natOfDigits p1.1, natOfDigits p2.1, natOfDigits p3.1,
      natOfDigits p4.1, natOfDigits p5.1, natOfDigits p6.1, natOfDigits g7)
  | _ => none

/-- `DataTable.parseValue`: on a string, try booleans, then numbers, then
dates; keep the string when nothing matched.  Non-strings pass through. -/
def parseValue : Value → Value
  | .vStr s =>
    (match parseBooleans s with
     | some b => Value.vBool b
     | none =>
       match parseNumbers s with
       | some n => Value.vNum n
       | none =>
         match parseDates s with
         | some d => d
         | none => Value.vStr s)
  | v => v

/-- `DataTable.parseXmlValue`: the same cascade, applied to an element's text
(which is always handed over as a string). -/
def parseXmlValue (s : String) : Value :=
  match parseBooleans s with
  | some b => Value.vBool b
  | none =>
    match parseNumbers s with
    | some n => Value.vNum n
    | none =>
      match parseDates s with
      | some d => d
      | none => Value.vStr s

/-! ## Rows and the Table model -/

/-- A row: an open, ordered mapping from column name to value.  An absent key
is JavaScript `undefined`. -/
abbrev Row := List (String × Value)

/-- First value bound to a key (JavaScript property read; `none` is
`undefined`). -/
def alistGet {α : Type} (l : List (String × α)) (k : String) : Option α :=
  (l.find? (fun p => p.1 = k)).map Prod.snd

/-- JavaScript property write: overwrite an existing key in place, otherwise
append. -/
def alistSet {α : Type} (l : List (String × α)) (k : String) (v : α) :
    List (String × α) :=
  if l.any (fun p => p.1 = k) then l.map (fun p => if p.1 = k then (k, v) else p)
  else l ++ [(k, v)]

def rowGet (r : Row) (k : String) : Option Value := alistGet r k

def rowSet (r : Row) (k : String) (v : Value) : Row := alistSet r k v

/-- JavaScript `delete row[k]`. -/
def rowDelete (r : Row) (k : String) : Row := r.filter (fun p => p.1 ≠ k)

/-- The property names a plain `{}` object inherits from `Object.prototype`:
reading any of them on an object without an own entry of that name yields the
inherited member (which is not `undefined`), and assigning `__proto__`
invokes the inherited setter instead of creating an own property. -/
def protoName (k : String) : Bool :=
  ["constructor", "hasOwnProperty", "isPrototypeOf", "propertyIsEnumerable",
   "toLocaleString", "toString", "valueOf", "__proto__", "__defineGetter__",
   "__defineSetter__", "__lookupGetter__", "__lookupSetter__"].contains k

/-- JavaScript property assignment `row[k] = v` on a plain data object: for
`k = "__proto__"` the inherited setter runs and no own property is created
(the written value in this development is a primitive or a plain data value;
an own `"__proto__"` column never appears), any other name is an ordinary
own-property write. -/
def rowAssign (r : Row) (k : String) (v : Value) : Row :=
  if k = "__proto__" then r else rowSet r k v

/-- The in-memory table: optional name plus ordered rows. -/
structure Table where
  name : Option String
  rows : List Row
  deriving DecidableEq

/-! ## `lookup` (column resolution with a per-call memo)

The memo object `cache` is a JavaScript object, so its keys are the *string
coercions* of the lookup-key values and an entry holding `undefined`
(`some none` below, stored when the resolver returned `undefined`) is
indistinguishable from an absent entry at the `cache[k] !== undefined` read. -/

abbrev Cache := List (String × Option Value)

/-- The *own-entry* part of the `cache[k] !== undefined` read.  On the real
`{}` object the read also finds inherited `Object.prototype` members for
keys such as `"toString"`; `lookupResolveJS` below adds that prototype-chain
branch, and the clean-map `lookup` built on this read is the model for calls
whose keys avoid those names. -/
def cacheGet (c : Cache) (k : String) : Option Value := (alistGet c k).join

/-- The lookup key of a row: the current value of the column, provided it is
neither `undefined` nor `null`, coerced to the string used as the memo key. -/
def lookupKey (col : String) (r : Row) : Option String :=
  match rowGet r col with
  | some v => if v = .vNull then none else some (jsToString v)
  | none => none

/-- One row of the `lookup` loop before write-back: the resolved value, the
cache afterwards, and whether the updater was invoked. -/
def lookupResolve (col : String) (f : Row → Option Value) (useCache : Bool)
    (cache : Cache) (r : Row) : Option Value × Cache × Bool :=
  match lookupKey col r with
  | some k =>
    if useCache then
      match cacheGet cache k with
      | some v => (some v, cache, false)
      | none => (f r, alistSet cache k (f r), true)
    else (f r, cache, true)
  | none => (f r, cache, true)

/-- Write-back: an `undefined` resolved value deletes the column key, any
other value is assigned to it. -/
def lookupWriteback (r : Row) (col : String) : Option Value → Row
  | none => rowDelete r col
  | some v => rowSet r col v

/-- The `lookup` loop over the rows, also returning the list of (pre-state)
rows the updater was invoked on, in invocation order. -/
def lookupAux (col : String) (f : Row → Option Value) (useCache : Bool) :
    List Row → Cache → List Row × List Row
  | [], _ => ([], [])
  | r :: rs, cache =>
    let step := lookupResolve col f useCache cache r
    let rest := lookupAux col f useCache rs step.2.1
    (lookupWriteback r col step.1 :: rest.1,
     if step.2.2 then r :: rest.2 else rest.2)

/-- `DataTable.lookup` (the cache is created empty for each call). -/
def lookup (col : String) (f : Row → Option Value) (useCache : Bool)
    (rows : List Row) : List Row :=
  (lookupAux col f useCache rows []).1

/-- The rows the updater was invoked on during one `lookup` call. -/
def lookupInvoked (col : String) (f : Row → Option Value) (useCache : Bool)
    (rows : List Row) : List Row :=
  (lookupAux col f useCache rows []).2

/-- First row whose lookup key coerces to the memo key `k`. -/
def firstKeyRow (col : String) (k : String) (rows : List Row) : Option Row :=
  rows.find? (fun r => lookupKey col r = some k)

/-! ## `lookup` against the real `{}` objects (the prototype chain)

`lookup`, `cacheGet` and `lookupKey` above read the memo and the row as clean
maps — the right model whenever the column name and the memo keys avoid the
`Object.prototype` member names, and the model the concrete claims about
ordinary keys use.  The source, however, runs against real JavaScript
objects: `cachedValues[lookupValue] !== undefined` finds an *inherited*
member for keys such as `"toString"` or `"__proto__"` (so the row is handed
that member and the resolver never runs), `row[columnName]` on an absent
prototype-named column reads the inherited member instead of `undefined`,
and `row["__proto__"] = v` creates no own property.  The `…JS` definitions
below model that faithfully; a cell may then hold a data value or a leaked
`Object.prototype` member. -/

/-- A cell of a row after `lookup`: a data value, or an inherited
`Object.prototype` member (named by its key) that leaked out of the memo. -/
inductive JSCell where
  | val (v : Value)
  | host (nm : String)
  deriving DecidableEq

/-- A row whose cells may hold leaked `Object.prototype` members. -/
abbrev JSRow := List (String × JSCell)

def rowToJS (r : Row) : JSRow := r.map fun p => (p.1, JSCell.val p.2)

/-- `String(x)` of an inherited `Object.prototype` member: reading
`__proto__` yields the prototype object itself (stringifying like any plain
object), every other member is a native function. -/
def hostString (nm : String) : String :=
  if nm = "__proto__" then "[object Object]"
  else "function " ++ nm ++ "() { [native code] }"

/-- JavaScript property assignment on a row that may hold leaked members
(`__proto__` creates no own property, as in `rowAssign`). -/
def jsRowSet (r : JSRow) (k : String) (c : JSCell) : JSRow :=
  if k = "__proto__" then r else alistSet r k c

/-- JavaScript `delete row[k]` (removes the own property). -/
def jsRowDelete (r : JSRow) (k : String) : JSRow := r.filter (fun p => p.1 ≠ k)

/-- The full JavaScript property read on a row: the own property if present,
else the inherited `Object.prototype` member for its names, else
`undefined`. -/
def jsRowGet (r : JSRow) (k : String) : Option JSCell :=
  match alistGet r k with
  | some c => some c
  | none => if protoName k then some (.host k) else none

/-- The lookup key read `row[columnName]` with the prototype chain: an own
column value that is not `null` coerces to its string; an *absent* column
named after an `Object.prototype` member reads the inherited member, which
is neither `null` nor `undefined` and coerces to its rendering. -/
def lookupKeyJS (col : String) (r : Row) : Option String :=
  match rowGet r col with
  | some v => if v = .vNull then none else some (jsToString v)
  | none => if protoName col then some (hostString col) else none

/-- One row of the `lookup` loop against the real `{}` memo: a memo key named
after an `Object.prototype` member always passes
`cachedValues[lookupValue] !== undefined` (the inherited member is found), so
the row is handed that member and the resolver does not run; any other key
behaves as an own-entry lookup, and the assignment `cachedValues[k] = value`
(whose key is then never `"__proto__"`) is an ordinary write. -/
def lookupResolveJS (col : String) (f : Row → Option Value) (useCache : Bool)
    (cache : Cache) (r : Row) : Option JSCell × Cache × Bool :=
  match lookupKeyJS col r with
  | some k =>
    if useCache then
      if protoName k then (some (.host k), cache, false)
      else
        match cacheGet cache k with
        | some v => (some (.val v), cache, false)
        | none => ((f r).map .val, alistSet cache k (f r), true)
    else ((f r).map .val, cache, true)
  | none => ((f r).map .val, cache, true)

/-- Write-back on the real row object: an `undefined` resolved value deletes
the column key, any other resolved value (data or leaked member) is
assigned. -/
def lookupWritebackJS (r : JSRow) (col : String) : Option JSCell → JSRow
  | none => jsRowDelete r col
  | some c => jsRowSet r col c

/-- The `lookup` loop over the rows against real objects, also returning the
rows the updater was invoked on. -/
def lookupAuxJS (col : String) (f : Row → Option Value) (useCache : Bool) :
    List Row → Cache → List JSRow × List Row
  | [], _ => ([], [])
  | r :: rs, cache =>
    let step := lookupResolveJS col f useCache cache r
    let rest := lookupAuxJS col f useCache rs step.2.1
    (lookupWritebackJS (rowToJS r) col step.1 :: rest.1,
     if step.2.2 then r :: rest.2 else rest.2)

/-- `DataTable.lookup` against real JavaScript objects (the cache is created
empty for each call). -/
def lookupJS (col : String) (f : Row → Option Value) (useCache : Bool)
    (rows : List Row) : List JSRow :=
  (lookupAuxJS col f useCache rows []).1

/-- The rows the updater was invoked on during one such `lookup` call. -/
def lookupInvokedJS (col : String) (f : Row → Option Value) (useCache : Bool)
    (rows : List Row) : List Row :=
  (lookupAuxJS col f useCache rows []).2

/-- First row whose prototype-aware lookup key coerces to the memo key
`k`. -/
def firstKeyRowJS (col : String) (k : String) (rows : List Row) : Option Row :=
  rows.find? (fun r => lookupKeyJS col r = some k)

/-! ## The markup (.xml) adapter

The xml-writer / elementtree pair is the byte-level collaborator; it is
modelled as the identity on element trees, so the adapter is expressed
directly on trees: a document is an optional root `name` attribute plus rows,
each row a list of column elements (tag, optional `type` attribute, text). -/

structure XmlField where
  tag : String
  typeAttr : Option String
  text : String
  deriving DecidableEq

structure XmlDoc where
  nameAttr : Option String
  rows : List (List XmlField)
  deriving DecidableEq

/-- `DataTable.serializeValue`: `null`/`undefined` yields `null` (omit);
a `Date` yields `JSON.stringify(value)` with the quotes stripped (its ISO
string); anything else yields `value.toString()`. -/
def serializeValue : Value → Option String
  | .vNull => none
  | .vBool true => some "true"
  | .vBool false => some "false"
  | .vNum n => some (numToString n)
  | .vStr s => some s
  | .vDate y mo d h mi s ms => some (String.mk (toISOChars y mo d h mi s ms))
  | .vTagged _ _ => some "[object Object]"

/-- One column of `serializeXml`'s row loop: skip `null` values; a non-`Date`
object with a `type` field is written with a `type` attribute around its inner
value; skip the column when the rendered text is `null`. -/
def serializeXmlField (nm : String) : Value → Option XmlField
  | .vNull => none
  | .vTagged t inner => (serializeValue inner).map fun s => ⟨nm, some t, s⟩
  | v => (serializeValue v).map fun s => ⟨nm, none, s⟩

def serializeXmlRow (r : Row) : List XmlField :=
  r.filterMap fun p => serializeXmlField p.1 p.2

/-- `DataTable.serializeXml`: root `DataTable` element with a `name` attribute
when the table's name is truthy, one `row` child per row. -/
def serializeXml (dt : Table) : XmlDoc :=
  ⟨match dt.name with
   | some n => if n = "" then none else some n
   | none => none,
   dt.rows.map serializeXmlRow⟩

/-- One column element on load: infer the value from the text, and wrap it as
`{type, value}` when the element carries a truthy `type` attribute. -/
def parseXmlField (fld : XmlField) : Value :=
  let pv := parseXmlValue fld.text
  match fld.typeAttr with
  | some t => if t = "" then pv else .vTagged t pv
  | none => pv

/-- `DataTable.parseXml`'s row loop: `rowItem[fieldName] = parsedValue` for
each column element, in document order.  The write is a JavaScript property
assignment, so an element tagged `__proto__` is silently dropped. -/
def parseXmlRow (flds : List XmlField) : Row :=
  flds.foldl (fun r fld => rowAssign r fld.tag (parseXmlField fld)) []

/-- `DataTable.parseXml`: the root's `name` attribute (when truthy) becomes
the table name, each child of the root a row. -/
def parseXml (doc : XmlDoc) : Table :=
  ⟨match doc.nameAttr with
   | some n => if n = "" then none else some n
   | none => none,
   doc.rows.map parseXmlRow⟩

/-! ## The structured-text (.json) adapter

`JSON.parse`/`JSON.stringify` are the byte-level collaborator; the adapter is
modelled on the parsed generic tree. -/

/-- A generic JSON tree. -/
inductive JVal where
  | jnull
  | jbool (b : Bool)
  | jnum (q : ℚ)
  | jstr (s : String)
  | jarr (xs : List JVal)
  | jobj (fs : List (String × JVal))

/-- A revived JSON tree: what `JSON.parse(text, JSONDataReviver)` produces —
the same tree with every string leaf matching the timestamp regex replaced by
the corresponding `Date`. -/
inductive RVal where
  | rnull
  | rbool (b : Bool)
  | rnum (q : ℚ)
  | rstr (s : String)
  | rdate (y : Nat) (mo : Int) (d h mi s ms : Nat)
  | rarr (xs : List RVal)
  | robj (fs : List (String × RVal))

mutual

/-- `DataTable.JSONDataReviver` applied throughout the tree (the reviver runs
on every key; it only rewrites string values via `parseDates`). -/
def revive : JVal → RVal
  | .jnull => .rnull
  | .jbool b => .rbool b
  | .jnum q => .rnum q
  | .jstr s =>
    match matchTs s.data with
    | some g => .rdate g.1 ((g.2.1 : Int) - 1) g.2.2.1 g.2.2.2.1 g.2.2.2.2.1
        g.2.2.2.2.2.1 g.2.2.2.2.2.2
    | none => .rstr s
  | .jarr xs => .rarr (reviveList xs)
  | .jobj fs => .robj (reviveObj fs)

def reviveList : List JVal → List RVal
  | [] => []
  | x :: xs => revive x :: reviveList xs

def reviveObj : List (String × JVal) → List (String × RVal)
  | [] => []
  | (k, v) :: fs => (k, revive v) :: reviveObj fs

end

/-- JavaScript truthiness of a revived value. -/
def truthyR : RVal → Bool
  | .rnull => false
  | .rbool b => b
  | .rnum q => decide (q ≠ 0)
  | .rstr s => decide (s ≠ "")
  | .rdate _ _ _ _ _ _ _ => true
  | .rarr _ => true
  | .robj _ => true

/-- Whether `dt.rows` is defined (only a plain object with a `rows` key has
one; arrays, strings, etc. yield `undefined`). -/
def hasRowsR : RVal → Bool
  | .robj fs => fs.any (fun f => f.1 = "rows")
  | _ => false

/-- The `.json` branch of `DataTable.load`, after the collaborator has parsed
the file: revive, then `if (dt && dt.rows === undefined) throw ...`. -/
def jsonLoad (v : JVal) : Except String RVal :=
  let d := revive v
  if truthyR d && !hasRowsR d then
    .error "The parsed file doesn't look like a DataTable"
  else .ok d

/-- `JSON.stringify` on a cell value: `undefined` never occurs as a cell;
`null` stringifies to `null`, NaN/Infinity to `null`, a `Date` to its ISO
string (via `Date.prototype.toJSON`), a tagged object to a plain object. -/
def stringifyValue : Value → JVal
  | .vNull => .jnull
  | .vBool b => .jbool b
  | .vNum (.fin q) => .jnum q
  | .vNum _ => .jnull
  | .vStr s => .jstr s
  | .vDate y mo d h mi s ms => .jstr (String.mk (toISOChars y mo d h mi s ms))
  | .vTagged t v => .jobj [("type", .jstr t), ("value", stringifyValue v)]

/-- `JSON.stringify` on a row object: every present key is emitted (in
particular a `null` value is written as a `null` token; only `undefined`
properties would be dropped, and those are exactly the absent keys). -/
def stringifyRow (r : Row) : JVal :=
  .jobj (r.map fun p => (p.1, stringifyValue p.2))

/-- The `.json` branch of `DataTable.save`: `JSON.stringify(this, null, 4)` —
the table object graph (`name` omitted when `undefined`, then `rows`). -/
def stringifyTable (dt : Table) : JVal :=
  .jobj ((match dt.name with
          | some n => [("name", JVal.jstr n)]
          | none => []) ++
         [("rows", JVal.jarr (dt.rows.map stringifyRow))])

/-! ## The dispatcher (`save` / `load` by file extension) -/

/-- The final path component (POSIX separators). -/
def basenameL (l : List Char) : List Char :=
  (l.reverse.takeWhile (fun c => c ≠ '/')).reverse

/-- Node's `path.extname`: the substring of the basename from its last dot,
empty when there is no dot or the only dot leads the basename. -/
def extnameL (l : List Char) : List Char :=
  let b := basenameL l
  if b = ['.'] ∨ b = ['.', '.'] then []
  else
    let p := b.reverse.span (fun c => c ≠ '.')
    match p.2 with
    | '.' :: pre => if pre.isEmpty then [] else '.' :: p.1.reverse
    | _ => []

def extname (s : String) : String := String.mk (extnameL s.data)

/-- `String.prototype.toLowerCase` (ASCII). -/
def lowerStr (s : String) : String := String.mk (s.data.map lowChar)

/-- What `save` hands to the file writer. -/
inductive SaveArtifact where
  | jsonFile (v : JVal)
  | xmlFile (d : XmlDoc)

/-- `DataTable.save`: dispatch on the lower-cased extension; unsupported
extensions throw before anything is serialized or written. -/
def save (dt : Table) (fileName : String) : Except String SaveArtifact :=
  let ext := lowerStr (extname fileName)
  if ext = ".json" then .ok (.jsonFile (stringifyTable dt))
  else if ext = ".xml" then .ok (.xmlFile (serializeXml dt))
  else .error ("Format \"" ++ ext ++ "\" not supported")

inductive LoadKind where
  | jsonKind
  | xmlKind
  | xlsxKind
  deriving DecidableEq

/-- The dispatch step of `DataTable.load`: which adapter runs (the `.json`
branch continues as `jsonLoad`, the `.xml` branch as `parseXml`); unsupported
extensions throw and no table is produced. -/
def loadFormat (fileName : String) : Except String LoadKind :=
  let ext := lowerStr (extname fileName)
  if ext = ".json" then .ok .jsonKind
  else if ext = ".xml" then .ok .xmlKind
  else if ext = ".xlsx" then .ok .xlsxKind
  else .error ("Format \"" ++ ext ++ "\" not supported")

/-! ## Well-formedness predicates used by the round-trip statements -/

/-- A primitive value that survives the markup round trip: a boolean, a
finite number with a terminating decimal expansion (every double has one), or
a normalized in-range date tuple with a four-digit year. -/
def goodPrim : Value → Bool
  | .vBool _ => true
  | .vNum (.fin q) => printableQ q
  | .vNum .nan => false
  | .vNum (.inf _) => false
  | .vDate y mo d h mi s ms =>
    decide (y ≤ 9999) && decide (0 ≤ mo) && decide (mo ≤ 11) &&
    decide (1 ≤ d) && decide (d ≤ 31) && decide (h ≤ 23) &&
    decide (mi ≤ 59) && decide (s ≤ 59) && decide (ms ≤ 999)
  | .vNull => false
  | .vStr _ => false
  | .vTagged _ _ => false

/-- A cell value that survives the markup round trip: a good primitive, or a
tagged value with a non-empty type tag around a good primitive. -/
def goodValue : Value → Bool
  | .vTagged t inner => decide (t ≠ "") && goodPrim inner
  | v => goodPrim v

/-- A row with distinct column names, none of them the prototype-mutating
name `__proto__` (whose column a reload's property write would drop), all of
whose values are good. -/
def goodRow (r : Row) : Bool :=
  decide (r.map Prod.fst).Nodup &&
    r.all fun p => goodValue p.2 && decide (p.1 ≠ "__proto__")

/-! # Lemmas -/

/-! ## Characters -/

theorem isDigit_toNat {c : Char} (h : c.isDigit = true) :
    48 ≤ c.toNat ∧ c.toNat ≤ 57 := by
  simpa [Char.isDigit] using h

theorem lowChar_of_isDigit {c : Char} (h : c.isDigit = true) : lowChar c = c := by
  have h2 := isDigit_toNat h
  unfold lowChar
  rw [if_neg]
  rintro ⟨h3, _⟩
  have h5 : (65 : Nat) ≤ c.toNat := h3
  omega

theorem not_isDigit_t : ('t' : Char).isDigit = false := by decide

theorem isDigit_ne {c d : Char} (hc : c.isDigit = true) (hd : d.isDigit = false) :
    c ≠ d := by
  intro he; subst he; rw [hc] at hd; exact Bool.noConfusion hd

theorem not_space_of_isDigit {c : Char} (h : c.isDigit = true) :
    isJSSpace c = false := by
  have h2 := isDigit_toNat h
  rw [Bool.eq_false_iff]
  intro hs
  simp only [isJSSpace, Bool.or_eq_true, decide_eq_true_eq] at hs
  rcases hs with ((((hs | hs) | hs) | hs) | hs) | hs <;>
    (subst hs; exact absurd h2 (by decide))

/-! ## Digit strings -/

theorem digitVal_digitChar {n : Nat} (h : n < 10) : digitVal (digitChar n) = n := by
  interval_cases n <;> decide

theorem isDigit_digitChar {n : Nat} (h : n < 10) : (digitChar n).isDigit = true := by
  interval_cases n <;> decide

theorem natDigitsAux_irrel :
    ∀ (n f1 f2 : Nat), n < f1 → n < f2 → natDigitsAux f1 n = natDigitsAux f2 n := by
  intro n
  induction n using Nat.strong_induction_on with
  | _ n ih =>
    intro f1 f2 h1 h2
    match f1, f2 with
    | f1 + 1, f2 + 1 =>
      simp only [natDigitsAux]
      by_cases h : n < 10
      · simp [h]
      · have hd : n / 10 < n := Nat.div_lt_self (by omega) (by omega)
        simp only [if_neg h]
        rw [ih (n / 10) hd f1 f2 (by omega) (by omega)]

theorem natDigits_unfold (n : Nat) :
    natDigits n =
      if n < 10 then [digitChar n] else natDigits (n / 10) ++ [digitChar (n % 10)] := by
  show natDigitsAux (n + 1) n = _
  rw [natDigitsAux]
  by_cases h : n < 10
  · simp [h]
  · have hd : n / 10 < n := Nat.div_lt_self (by omega) (by omega)
    simp only [if_neg h]
    rw [natDigitsAux_irrel (n / 10) n (n / 10 + 1) (by omega) (by omega)]
    rfl

theorem natDigits_ne_nil (n : Nat) : natDigits n ≠ [] := by
  rw [natDigits_unfold]
  by_cases h : n < 10 <;> simp [h]

theorem natDigits_all_digit :
    ∀ (n : Nat), ∀ c ∈ natDigits n, c.isDigit = true := by
  intro n
  induction n using Nat.strong_induction_on with
  | _ n ih =>
    intro c hc
    rw [natDigits_unfold] at hc
    by_cases h : n < 10
    · rw [if_pos h] at hc
      simp only [List.mem_singleton] at hc
      subst hc; exact isDigit_digitChar h
    · rw [if_neg h] at hc
      rcases List.mem_append.mp hc with h1 | h1
      · exact ih (n / 10) (Nat.div_lt_self (by omega) (by omega)) c h1
      · simp only [List.mem_singleton] at h1
        subst h1; exact isDigit_digitChar (Nat.mod_lt _ (by omega))

theorem foldl_digits (l : List Char) :
    ∀ (a : Nat), l.foldl (fun a c => 10 * a + digitVal c) a =
      a * 10 ^ l.length + natOfDigits l := by
  induction l with
  | nil => intro a; simp [natOfDigits]
  | cons c t ih =>
    intro a
    show t.foldl _ (10 * a + digitVal c) = _
    rw [ih (10 * a + digitVal c)]
    have h2 : natOfDigits (c :: t) = digitVal c * 10 ^ t.length + natOfDigits t := by
      show t.foldl _ (10 * 0 + digitVal c) = _
      rw [ih (10 * 0 + digitVal c)]; ring_nf
    rw [h2, List.length_cons]; ring

theorem natOfDigits_append (l1 l2 : List Char) :
    natOfDigits (l1 ++ l2) = natOfDigits l1 * 10 ^ l2.length + natOfDigits l2 := by
  show (l1 ++ l2).foldl _ 0 = _
  rw [List.foldl_append, foldl_digits l2]
  rfl

theorem natOfDigits_natDigits : ∀ (n : Nat), natOfDigits (natDigits n) = n := by
  intro n
  induction n using Nat.strong_induction_on with
  | _ n ih =>
    rw [natDigits_unfold]
    by_cases h : n < 10
    · rw [if_pos h]
      show 10 * 0 + digitVal (digitChar n) = n
      rw [digitVal_digitChar h]; omega
    · rw [if_neg h, natOfDigits_append,
        ih (n / 10) (Nat.div_lt_self (by omega) (by omega))]
      have h2 : natOfDigits [digitChar (n % 10)] = n % 10 := by
        show 10 * 0 + digitVal (digitChar (n % 10)) = n % 10
        rw [digitVal_digitChar (Nat.mod_lt _ (by omega))]; omega
      rw [h2]
      simp only [List.length_singleton, pow_one]
      omega

theorem natDigits_length_le :
    ∀ (n k : Nat), n < 10 ^ k → 1 ≤ k → (natDigits n).length ≤ k := by
  intro n
  induction n using Nat.strong_induction_on with
  | _ n ih =>
    intro k hk h1
    rw [natDigits_unfold]
    by_cases h : n < 10
    · rw [if_pos h]
      simpa using h1
    · rw [if_neg h]
      have hk2 : 2 ≤ k := by
        by_contra hc
        have : k = 1 := by omega
        subst this; simp at hk; omega
      have hfit : n / 10 < 10 ^ (k - 1) := by
        have h10 : 10 ^ k = 10 ^ (k - 1) * 10 := by
          conv_lhs => rw [show k = k - 1 + 1 by omega]
          rw [pow_succ]
        rw [Nat.div_lt_iff_lt_mul (by omega)]
        omega
      have := ih (n / 10) (Nat.div_lt_self (by omega) (by omega)) (k - 1) hfit (by omega)
      simp only [List.length_append, List.length_singleton]
      omega

theorem natDigits_head_zero :
    ∀ (n : Nat), (natDigits n).head? = some '0' → n = 0 := by
  intro n
  induction n using Nat.strong_induction_on with
  | _ n ih =>
    intro hh
    rw [natDigits_unfold] at hh
    by_cases h : n < 10
    · rw [if_pos h] at hh
      simp only [List.head?_cons, Option.some_inj] at hh
      interval_cases n <;> first | rfl | exact absurd hh (by decide)
    · rw [if_neg h] at hh
      rw [List.head?_append_of_ne_nil _ (natDigits_ne_nil _)] at hh
      have := ih (n / 10) (Nat.div_lt_self (by omega) (by omega)) hh
      omega

theorem natOfDigits_replicate_zero (m : Nat) (l : List Char) :
    natOfDigits (List.replicate m '0' ++ l) = natOfDigits l := by
  induction m with
  | zero => simp
  | succ k ih =>
    rw [List.replicate_succ, List.cons_append]
    show (List.replicate k '0' ++ l).foldl _ (10 * 0 + digitVal '0') = _
    have : 10 * 0 + digitVal '0' = 0 := by decide
    rw [this]
    exact ih

theorem natOfDigits_padZeros (k : Nat) (ds : List Char) :
    natOfDigits (padZeros k ds) = natOfDigits ds :=
  natOfDigits_replicate_zero _ _

theorem padZeros_length {k : Nat} {ds : List Char} (h : ds.length ≤ k) :
    (padZeros k ds).length = k := by
  simp only [padZeros, List.length_append, List.length_replicate]
  omega

theorem padZeros_all_digit {k : Nat} {ds : List Char}
    (h : ∀ c ∈ ds, c.isDigit = true) :
    ∀ c ∈ padZeros k ds, c.isDigit = true := by
  intro c hc
  rcases List.mem_append.mp hc with h1 | h1
  · rw [List.eq_of_mem_replicate h1]; decide
  · exact h c h1

/-! ## takeWhile / dropWhile -/

theorem takeWhile_append_all {p : Char → Bool} {l1 l2 : List Char}
    (h1 : ∀ c ∈ l1, p c = true)
    (h2 : ∀ c, l2.head? = some c → p c = false) :
    (l1 ++ l2).takeWhile p = l1 ∧ (l1 ++ l2).dropWhile p = l2 := by
  induction l1 with
  | nil =>
    simp only [List.nil_append]
    cases l2 with
    | nil => simp
    | cons c t =>
      have := h2 c rfl
      constructor
      · rw [List.takeWhile_cons, this]
        simp
      · rw [List.dropWhile_cons, this]
        simp
  | cons c t ih =>
    have hc : p c = true := h1 c (by simp)
    have iht := ih (fun x hx => h1 x (by simp [hx]))
    constructor
    · rw [List.cons_append, List.takeWhile_cons, hc]
      simpa using iht.1
    · rw [List.cons_append, List.dropWhile_cons, hc]
      exact iht.2

theorem dropWhile_eq_self_of_none {p : Char → Bool} {l : List Char}
    (h : ∀ c ∈ l, p c = false) : l.dropWhile p = l := by
  cases l with
  | nil => rfl
  | cons c t =>
    rw [List.dropWhile_cons, h c (by simp)]
    simp

theorem trimL_eq_self {l : List Char} (h : ∀ c ∈ l, isJSSpace c = false) :
    trimL l = l := by
  unfold trimL
  rw [dropWhile_eq_self_of_none h,
    dropWhile_eq_self_of_none (fun c hc => h c (List.mem_reverse.mp hc)),
    List.reverse_reverse]

/-! ## The decimal literal parsers on printed numbers -/

theorem withExp_nil (q : ℚ) : withExp q [] = (.fin q, []) := rfl

theorem withExp_not_exp {q : ℚ} {c : Char} {r : List Char}
    (h1 : c ≠ 'e') (h2 : c ≠ 'E') : withExp q (c :: r) = (.fin q, c :: r) := by
  simp only [withExp]
  rw [if_neg]
  rintro (h | h) <;> contradiction

theorem take_eq_infinity_head {l : List Char} (h : l.take 8 = "Infinity".data) :
    l.head? = some 'I' := by
  cases l with
  | nil => simp at h
  | cons c t =>
    rw [List.take_succ_cons] at h
    have : c = 'I' := (List.cons.injEq _ _ _ _ ▸ h).1
    subst this; rfl

theorem not_infinity_of_digit_head {c : Char} {t : List Char}
    (h : c.isDigit = true) : (c :: t).take 8 ≠ "Infinity".data := by
  intro he
  have h2 := take_eq_infinity_head he
  simp only [List.head?_cons, Option.some_inj] at h2
  subst h2
  exact absurd h (by decide)

theorem decUnsigned_int {ds r : List Char} (h1 : ds ≠ [])
    (h2 : ∀ c ∈ ds, c.isDigit = true)
    (h3 : ∀ c, r.head? = some c → c.isDigit = false)
    (h4 : ∀ c, r.head? = some c → c ≠ '.') :
    decUnsigned (ds ++ r) = some (withExp (natOfDigits ds : ℚ) r) := by
  have hsp := takeWhile_append_all (p := Char.isDigit) h2 h3
  obtain ⟨c0, t0, hds⟩ : ∃ c0 t0, ds = c0 :: t0 := by
    cases ds with
    | nil => exact absurd rfl h1
    | cons a b => exact ⟨a, b, rfl⟩
  have hInf : (ds ++ r).take 8 ≠ "Infinity".data := by
    rw [hds, List.cons_append]
    exact not_infinity_of_digit_head (h2 c0 (by rw [hds]; simp))
  unfold decUnsigned
  rw [if_neg hInf]
  simp only [hsp.1, hsp.2]
  have hem : ds.isEmpty = false := by rw [hds]; rfl
  rw [hem]
  simp only [Bool.false_eq_true, if_false]
  cases r with
  | nil => rfl
  | cons c t =>
    have hne : c ≠ '.' := h4 c rfl
    split
    · rename_i heq
      exact absurd (List.cons.injEq _ _ _ _ ▸ heq).1 hne
    · rfl

theorem decUnsigned_frac {ds fs r : List Char} (h1 : ds ≠ [])
    (h2 : ∀ c ∈ ds, c.isDigit = true)
    (h5 : ∀ c ∈ fs, c.isDigit = true)
    (h3 : ∀ c, r.head? = some c → c.isDigit = false) :
    decUnsigned (ds ++ '.' :: (fs ++ r)) =
      some (withExp ((natOfDigits ds : ℚ) + (natOfDigits fs : ℚ) / 10 ^ fs.length) r) := by
  have hdot : ∀ c, ('.' :: (fs ++ r)).head? = some c → c.isDigit = false := by
    intro c hc
    simp only [List.head?_cons, Option.some_inj] at hc
    subst hc; decide
  have hsp := takeWhile_append_all (p := Char.isDigit) h2 hdot
  have hsp2 := takeWhile_append_all (p := Char.isDigit) h5 h3
  obtain ⟨c0, t0, hds⟩ : ∃ c0 t0, ds = c0 :: t0 := by
    cases ds with
    | nil => exact absurd rfl h1
    | cons a b => exact ⟨a, b, rfl⟩
  have hInf : (ds ++ '.' :: (fs ++ r)).take 8 ≠ "Infinity".data := by
    rw [hds, List.cons_append]
    exact not_infinity_of_digit_head (h2 c0 (by rw [hds]; simp))
  unfold decUnsigned
  rw [if_neg hInf]
  simp only [hsp.1, hsp.2]
  have hem : ds.isEmpty = false := by rw [hds]; rfl
  rw [hem]
  simp only [Bool.false_eq_true, if_false, hsp2.1, hsp2.2]

theorem decSigned_digit_head {c : Char} {t : List Char} (h : c.isDigit = true) :
    decSigned (c :: t) = decUnsigned (c :: t) := by
  unfold decSigned
  split
  · rename_i heq
    exact absurd ((List.cons.injEq _ _ _ _ ▸ heq).1 ▸ h) (by decide)
  · rename_i heq
    exact absurd ((List.cons.injEq _ _ _ _ ▸ heq).1 ▸ h) (by decide)
  · rfl

theorem findDenAux_spec (q : ℚ) :
    ∀ (fuel i k : Nat), findDenAux q fuel i = some k → (q * 10 ^ k).den = 1 := by
  intro fuel
  induction fuel with
  | zero => intro i k h; exact absurd h (by simp [findDenAux])
  | succ f ih =>
    intro i k h
    unfold findDenAux at h
    by_cases hd : (q * 10 ^ i).den = 1
    · rw [if_pos hd] at h
      cases h; exact hd
    · rw [if_neg hd] at h
      exact ih (i + 1) k h

theorem parse_natDigits (n : Nat) :
    decUnsigned (natDigits n) = some (.fin (n : ℚ), []) := by
  have h := @decUnsigned_int (natDigits n) []
    (natDigits_ne_nil n) (natDigits_all_digit n) (by simp) (by simp)
  rw [List.append_nil] at h
  rw [h, withExp_nil, natOfDigits_natDigits]

theorem natDigits_zero : natDigits 0 = ['0'] := rfl

theorem div_mod_cast_q (n k : Nat) :
    ((n / 10 ^ k : Nat) : ℚ) + ((n % 10 ^ k : Nat) : ℚ) / 10 ^ k = (n : ℚ) / 10 ^ k := by
  have hm := Nat.div_add_mod n (10 ^ k)
  have hpow : ((10 : ℚ) ^ k) ≠ 0 := by positivity
  field_simp
  have : ((10 ^ k * (n / 10 ^ k) + n % 10 ^ k : Nat) : ℚ) = (n : ℚ) := by
    rw [hm]
  push_cast at this
  linarith [this]

theorem parse_fracBody {k n : Nat} (hk : 1 ≤ k) :
    decUnsigned (natDigits (n / 10 ^ k) ++ '.' :: padZeros k (natDigits (n % 10 ^ k))) =
      some (.fin ((n : ℚ) / 10 ^ k), []) := by
  have hlen : (padZeros k (natDigits (n % 10 ^ k))).length = k :=
    padZeros_length (natDigits_length_le _ k (Nat.mod_lt _ (by positivity)) hk)
  have h := @decUnsigned_frac (natDigits (n / 10 ^ k))
    (padZeros k (natDigits (n % 10 ^ k))) []
    (natDigits_ne_nil _) (natDigits_all_digit _)
    (padZeros_all_digit (natDigits_all_digit _)) (by simp)
  rw [List.append_nil] at h
  rw [h, withExp_nil, natOfDigits_padZeros, natOfDigits_natDigits,
    natOfDigits_natDigits, hlen, div_mod_cast_q]

theorem toNumberL_decFull {t : List Char} (hns : ∀ c ∈ t, isJSSpace c = false)
    (hne : t ≠ [])
    (hx : ∀ c rest, t = '0' :: c :: rest →
      c ≠ 'x' ∧ c ≠ 'X' ∧ c ≠ 'b' ∧ c ≠ 'B' ∧ c ≠ 'o' ∧ c ≠ 'O') :
    toNumberL t = decFull t := by
  unfold toNumberL
  rw [trimL_eq_self hns]
  split
  · exact absurd rfl hne
  · rename_i c rest
    obtain ⟨hx1, hx2, hx3, hx4, hx5, hx6⟩ := hx c rest rfl
    rw [if_neg (by rintro (hh | hh) <;> contradiction),
      if_neg (by rintro (hh | hh) <;> contradiction),
      if_neg (by rintro (hh | hh) <;> contradiction)]
  · rfl

/-- Everything at once about the printed form of a finite number: its parse
as a signed decimal literal, its character inventory, its head, and its value
under `ToNumber`. -/
theorem finToChars_main {q : ℚ} (h : printableQ q = true) :
    decSigned (finToChars q) = some (.fin q, []) ∧
    (∀ c ∈ finToChars q, c.isDigit = true ∨ c = '.' ∨ c = '-') ∧
    (∃ c t, finToChars q = c :: t ∧ (c.isDigit = true ∨ c = '-')) ∧
    toNumberL (finToChars q) = .fin q := by
  obtain ⟨k, hk⟩ := Option.isSome_iff_exists.mp h
  have hden := findDenAux_spec q 1200 0 k hk
  have hnum : (((q * 10 ^ k).num : ℚ)) = q * 10 ^ k := (Rat.den_eq_one_iff _).mp hden
  have hchars : ∀ c ∈ (if k = 0 then natDigits ((q * 10 ^ k).num.natAbs)
      else natDigits ((q * 10 ^ k).num.natAbs / 10 ^ k) ++
        '.' :: padZeros k (natDigits ((q * 10 ^ k).num.natAbs % 10 ^ k))),
      c.isDigit = true ∨ c = '.' ∨ c = '-' := by
    intro c hc
    by_cases h0 : k = 0
    · rw [if_pos h0] at hc
      exact Or.inl (natDigits_all_digit _ c hc)
    · rw [if_neg h0] at hc
      rcases List.mem_append.mp hc with h1 | h1
      · exact Or.inl (natDigits_all_digit _ c h1)
      · rcases List.mem_cons.mp h1 with h2 | h2
        · exact Or.inr (Or.inl h2)
        · exact Or.inl (padZeros_all_digit (natDigits_all_digit _) c h2)
  have hbody : decUnsigned (if k = 0 then natDigits ((q * 10 ^ k).num.natAbs)
      else natDigits ((q * 10 ^ k).num.natAbs / 10 ^ k) ++
        '.' :: padZeros k (natDigits ((q * 10 ^ k).num.natAbs % 10 ^ k))) =
      some (.fin (((q * 10 ^ k).num.natAbs : ℚ) / 10 ^ k), []) := by
    by_cases h0 : k = 0
    · subst h0
      rw [if_pos rfl, parse_natDigits]
      norm_num
    · rw [if_neg h0]
      exact parse_fracBody (by omega)
  have hheadbody : ∃ c t, (if k = 0 then natDigits ((q * 10 ^ k).num.natAbs)
      else natDigits ((q * 10 ^ k).num.natAbs / 10 ^ k) ++
        '.' :: padZeros k (natDigits ((q * 10 ^ k).num.natAbs % 10 ^ k))) = c :: t ∧
      c.isDigit = true := by
    by_cases h0 : k = 0
    · rw [if_pos h0]
      obtain ⟨c, t, hct⟩ : ∃ c t, natDigits ((q * 10 ^ k).num.natAbs) = c :: t := by
        cases he : natDigits ((q * 10 ^ k).num.natAbs) with
        | nil => exact absurd he (natDigits_ne_nil _)
        | cons a b => exact ⟨a, b, rfl⟩
      exact ⟨c, t, hct, natDigits_all_digit _ c (by rw [hct]; simp)⟩
    · rw [if_neg h0]
      obtain ⟨c, t, hct⟩ : ∃ c t, natDigits ((q * 10 ^ k).num.natAbs / 10 ^ k) = c :: t := by
        cases he : natDigits ((q * 10 ^ k).num.natAbs / 10 ^ k) with
        | nil => exact absurd he (natDigits_ne_nil _)
        | cons a b => exact ⟨a, b, rfl⟩
      refine ⟨c, t ++ '.' :: padZeros k (natDigits ((q * 10 ^ k).num.natAbs % 10 ^ k)), ?_, ?_⟩
      · rw [hct, List.cons_append]
      · exact natDigits_all_digit _ c (by rw [hct]; simp)
  by_cases hq : q < 0
  · -- negative: a '-' sign precedes the digits, and the numerator is -(q·10^k)
    have hneg : (((q * 10 ^ k).num.natAbs : ℚ)) = -(q * 10 ^ k) := by
      have hle : (q * 10 ^ k).num ≤ 0 := by
        by_contra hgt
        have h1 : (0 : ℚ) ≤ q * 10 ^ k := Rat.num_nonneg.mp (by omega)
        have h2 : q * 10 ^ k < 0 := by
          apply mul_neg_of_neg_of_pos hq
          positivity
        linarith
      have h2 : (((q * 10 ^ k).num.natAbs : ℚ)) = ((|(q * 10 ^ k).num| : ℤ) : ℚ) :=
        Int.cast_natAbs
      rw [h2, abs_of_nonpos hle, Int.cast_neg, hnum]
    have hform : finToChars q = '-' :: (if k = 0 then natDigits ((q * 10 ^ k).num.natAbs)
        else natDigits ((q * 10 ^ k).num.natAbs / 10 ^ k) ++
          '.' :: padZeros k (natDigits ((q * 10 ^ k).num.natAbs % 10 ^ k))) := by
      unfold finToChars
      rw [hk]
      simp only [if_pos hq]
      by_cases h0 : k = 0
      · rw [if_pos h0, if_pos h0]; rfl
      · rw [if_neg h0, if_neg h0]; rfl
    have hvq : (((q * 10 ^ k).num.natAbs : ℚ) / 10 ^ k) = -q := by
      rw [hneg]
      field_simp
    have hsig : decSigned (finToChars q) = some (.fin q, []) := by
      rw [hform]
      show (decUnsigned _).map _ = _
      rw [hbody, hvq]
      show some (JSNum.neg (.fin (-q)), _) = _
      simp [JSNum.neg]
    refine ⟨hsig, ?_, ?_, ?_⟩
    · intro c hc
      rw [hform] at hc
      rcases List.mem_cons.mp hc with h1 | h1
      · exact Or.inr (Or.inr h1)
      · exact hchars c h1
    · exact ⟨'-', _, hform, Or.inr rfl⟩
    · have hns : ∀ c ∈ finToChars q, isJSSpace c = false := by
        intro c hc
        rw [hform] at hc
        rcases List.mem_cons.mp hc with h1 | h1
        · subst h1; decide
        · rcases hchars c h1 with hd | hd | hd
          · exact not_space_of_isDigit hd
          · subst hd; decide
          · subst hd; decide
      rw [toNumberL_decFull hns (by rw [hform]; simp) ?_]
      · unfold decFull
        rw [hsig]
      · intro c rest heq
        rw [hform] at heq
        exact absurd (List.cons.injEq _ _ _ _ ▸ heq).1 (by decide)
  · -- nonnegative
    have hpos : (((q * 10 ^ k).num.natAbs : ℚ)) = q * 10 ^ k := by
      have hge : 0 ≤ (q * 10 ^ k).num := by
        apply Rat.num_nonneg.mpr
        apply mul_nonneg (le_of_not_lt hq)
        positivity
      have h2 : (((q * 10 ^ k).num.natAbs : ℚ)) = ((|(q * 10 ^ k).num| : ℤ) : ℚ) :=
        Int.cast_natAbs
      rw [h2, abs_of_nonneg hge]
      exact hnum
    have hform : finToChars q = (if k = 0 then natDigits ((q * 10 ^ k).num.natAbs)
        else natDigits ((q * 10 ^ k).num.natAbs / 10 ^ k) ++
          '.' :: padZeros k (natDigits ((q * 10 ^ k).num.natAbs % 10 ^ k))) := by
      unfold finToChars
      rw [hk]
      simp only [if_neg hq]
      by_cases h0 : k = 0
      · rw [if_pos h0, if_pos h0]; rfl
      · rw [if_neg h0, if_neg h0]; rfl
    have hvq : (((q * 10 ^ k).num.natAbs : ℚ) / 10 ^ k) = q := by
      rw [hpos]
      field_simp
    obtain ⟨c, t, hct, hcd⟩ := hheadbody
    have hsig : decSigned (finToChars q) = some (.fin q, []) := by
      rw [hform, hct, decSigned_digit_head hcd, ← hct, hbody, hvq]
    refine ⟨hsig, ?_, ?_, ?_⟩
    · intro c2 hc2
      rw [hform] at hc2
      exact hchars c2 hc2
    · exact ⟨c, t, by rw [hform, hct], Or.inl hcd⟩
    · have hns : ∀ c2 ∈ finToChars q, isJSSpace c2 = false := by
        intro c2 hc2
        rw [hform] at hc2
        rcases hchars c2 hc2 with hd | hd | hd
        · exact not_space_of_isDigit hd
        · subst hd; decide
        · subst hd; decide
      rw [toNumberL_decFull hns (by rw [hform, hct]; simp) ?_]
      · unfold decFull
        rw [hsig]
      · intro c2 rest heq
        rw [hform] at heq
        by_cases h0 : k = 0
        · rw [if_pos h0] at heq
          have hz : ((q * 10 ^ k).num.natAbs) = 0 :=
            natDigits_head_zero _ (by rw [heq]; rfl)
          rw [hz, natDigits_zero] at heq
          exact absurd (List.cons.injEq _ _ _ _ ▸ heq).2 (by simp)
        · rw [if_neg h0] at heq
          obtain ⟨c3, t3, hct3⟩ : ∃ c3 t3,
              natDigits ((q * 10 ^ k).num.natAbs / 10 ^ k) = c3 :: t3 := by
            cases he : natDigits ((q * 10 ^ k).num.natAbs / 10 ^ k) with
            | nil => exact absurd he (natDigits_ne_nil _)
            | cons a b => exact ⟨a, b, rfl⟩
          rw [hct3, List.cons_append] at heq
          injection heq with ha hb
          have hz : ((q * 10 ^ k).num.natAbs / 10 ^ k) = 0 :=
            natDigits_head_zero _ (by rw [hct3, ha]; rfl)
          rw [hz, natDigits_zero] at hct3
          injection hct3 with hc1 hc2
          rw [← hc2, List.nil_append] at hb
          injection hb with hb1 hb2
          rw [← hb1]
          refine ⟨by decide, by decide, by decide, by decide, by decide, by decide⟩

theorem ciEq_head_false {c : Char} {t : List Char} (hc : c.isDigit = true ∨ c = '-') :
    ciEq (c :: t) "true".data = false ∧ ciEq (c :: t) "false".data = false := by
  have hl : lowChar c = c := by
    rcases hc with h | h
    · exact lowChar_of_isDigit h
    · subst h; decide
  have hct : c ≠ 't' := by
    rcases hc with h | h
    · exact isDigit_ne h (by decide)
    · subst h; decide
  have hcf : c ≠ 'f' := by
    rcases hc with h | h
    · exact isDigit_ne h (by decide)
    · subst h; decide
  constructor
  · show ciEq (c :: t) ('t' :: "rue".data) = false
    simp [ciEq, hl, hct]
  · show ciEq (c :: t) ('f' :: "alse".data) = false
    simp [ciEq, hl, hcf]

/-- The printed form of a finite number is inferred back as exactly that
number: it fails the boolean test and passes the numeric test with the same
value. -/
theorem print_parse_num {q : ℚ} (h : printableQ q = true) :
    parseBooleans (String.mk (finToChars q)) = none ∧
    parseNumbers (String.mk (finToChars q)) = some (.fin q) := by
  obtain ⟨hsig, hchars, ⟨c, t, hct, hcd⟩, htn⟩ := finToChars_main h
  have hns : ∀ c2 ∈ finToChars q, isJSSpace c2 = false := by
    intro c2 hc2
    rcases hchars c2 hc2 with hd | hd | hd
    · exact not_space_of_isDigit hd
    · subst hd; decide
    · subst hd; decide
  constructor
  · show parseBooleans (String.mk (finToChars q)) = none
    unfold parseBooleans
    have hdata : (String.mk (finToChars q)).data = finToChars q := rfl
    rw [hdata, hct]
    obtain ⟨he1, he2⟩ := ciEq_head_false hcd
    rw [he1, he2]
    simp
  · unfold parseNumbers
    have hdata : (String.mk (finToChars q)).data = finToChars q := rfl
    rw [hdata, htn]
    have hpf : parseFloatL (finToChars q) = .fin q := by
      unfold parseFloatL
      rw [dropWhile_eq_self_of_none hns, hsig]
    rw [hpf]
    simp [JSNum.sub, JSNum.addOne, JSNum.geZero]

/-! ## Printed timestamps -/

theorem takeD_exact {ds : List Char} (h : ∀ c ∈ ds, c.isDigit = true) :
    ∀ (r : List Char), takeD ds.length (ds ++ r) = some (ds, r) := by
  induction ds with
  | nil => intro r; rfl
  | cons c t ih =>
    intro r
    show takeD (t.length + 1) (c :: (t ++ r)) = _
    unfold takeD
    rw [if_pos (h c (by simp)), ih (fun x hx => h x (by simp [hx])) r]
    rfl

theorem expectChar_cons (c : Char) (l : List Char) : expectChar c (c :: l) = some l := by
  simp [expectChar]

theorem length_four_cons {l : List Char} (h : l.length = 4) :
    ∃ a b t, l = a :: b :: t := by
  cases l with
  | nil => simp at h
  | cons a l1 =>
    cases l1 with
    | nil => simp at h
    | cons b t => exact ⟨a, b, t, rfl⟩

/-- Character inventory of an ISO string. -/
theorem toISOChars_mem {y : Nat} {mo : Int} {d h mi s ms : Nat} :
    ∀ c ∈ toISOChars y mo d h mi s ms,
      c.isDigit = true ∨ c = '-' ∨ c = ':' ∨ c = 'T' ∨ c = '.' ∨ c = 'Z' := by
  intro c hc
  unfold toISOChars at hc
  simp only [List.mem_append, List.mem_cons, List.mem_singleton] at hc
  rcases hc with ((((((h1 | h1) | h1) | h1) | h1) | h1) | h1) | h1
  · exact Or.inl (padZeros_all_digit (natDigits_all_digit _) c h1)
  · rcases h1 with h1 | h1
    · exact Or.inr (Or.inl h1)
    · exact Or.inl (padZeros_all_digit (natDigits_all_digit _) c h1)
  · rcases h1 with h1 | h1
    · exact Or.inr (Or.inl h1)
    · exact Or.inl (padZeros_all_digit (natDigits_all_digit _) c h1)
  · rcases h1 with h1 | h1
    · exact Or.inr (Or.inr (Or.inr (Or.inl h1)))
    · exact Or.inl (padZeros_all_digit (natDigits_all_digit _) c h1)
  · rcases h1 with h1 | h1
    · exact Or.inr (Or.inr (Or.inl h1))
    · exact Or.inl (padZeros_all_digit (natDigits_all_digit _) c h1)
  · rcases h1 with h1 | h1
    · exact Or.inr (Or.inr (Or.inl h1))
    · exact Or.inl (padZeros_all_digit (natDigits_all_digit _) c h1)
  · rcases h1 with h1 | h1
    · exact Or.inr (Or.inr (Or.inr (Or.inr (Or.inl h1))))
    · exact Or.inl (padZeros_all_digit (natDigits_all_digit _) c h1)
  · rcases h1 with h1 | h1
    · exact Or.inr (Or.inr (Or.inr (Or.inr (Or.inr h1))))
    · exact absurd h1 (List.not_mem_nil c)

theorem toISOChars_nonspace {y : Nat} {mo : Int} {d h mi s ms : Nat} :
    ∀ c ∈ toISOChars y mo d h mi s ms, isJSSpace c = false := by
  intro c hc
  rcases toISOChars_mem c hc with h1 | h1 | h1 | h1 | h1 | h1
  · exact not_space_of_isDigit h1
  all_goals (subst h1; decide)

theorem toISOChars_flat {y : Nat} {mo : Int} {d h mi s ms : Nat} :
    toISOChars y mo d h mi s ms =
      padZeros 4 (natDigits y) ++
        ('-' :: (padZeros 2 (natDigits (mo + 1).toNat) ++
          ('-' :: (padZeros 2 (natDigits d) ++
            ('T' :: (padZeros 2 (natDigits h) ++
              (':' :: (padZeros 2 (natDigits mi) ++
                (':' :: (padZeros 2 (natDigits s) ++
                  ('.' :: (padZeros 3 (natDigits ms) ++ ['Z'])))))))))))) := by
  unfold toISOChars
  simp [List.cons_append, List.append_assoc]

theorem toISOChars_head_digit (y : Nat) (mo : Int) (d h mi s ms : Nat)
    (hy : y ≤ 9999) :
    ∃ c t, toISOChars y mo d h mi s ms = c :: t ∧ c.isDigit = true := by
  have hY : (padZeros 4 (natDigits y)).length = 4 :=
    padZeros_length (natDigits_length_le _ 4 (by omega) (by omega))
  obtain ⟨a, b, t2, hab⟩ := length_four_cons hY
  have ha : a.isDigit = true :=
    padZeros_all_digit (natDigits_all_digit _) a (by rw [hab]; simp)
  refine ⟨a, b :: (t2 ++ ('-' :: (padZeros 2 (natDigits (mo + 1).toNat) ++
    ('-' :: (padZeros 2 (natDigits d) ++
      ('T' :: (padZeros 2 (natDigits h) ++
        (':' :: (padZeros 2 (natDigits mi) ++
          (':' :: (padZeros 2 (natDigits s) ++
            ('.' :: (padZeros 3 (natDigits ms) ++ ['Z']))))))))))))), ?_, ha⟩
  rw [toISOChars_flat, hab]
  rfl

/-- `ToNumber` on an ISO string is NaN: the year digits parse as an integer
literal but the following `'-'` is left unconsumed. -/
theorem toISOChars_toNumber {y : Nat} {mo : Int} {d h mi s ms : Nat}
    (hy : y ≤ 9999) : toNumberL (toISOChars y mo d h mi s ms) = .nan := by
  have hY : (padZeros 4 (natDigits y)).length = 4 :=
    padZeros_length (natDigits_length_le _ 4 (by omega) (by omega))
  have hYd : ∀ c ∈ padZeros 4 (natDigits y), c.isDigit = true :=
    padZeros_all_digit (natDigits_all_digit _)
  obtain ⟨a, b, t2, hab⟩ := length_four_cons hY
  have hdec : decSigned (toISOChars y mo d h mi s ms) =
      some (.fin (natOfDigits (padZeros 4 (natDigits y)) : ℚ),
        '-' :: (padZeros 2 (natDigits (mo + 1).toNat) ++
          ('-' :: (padZeros 2 (natDigits d) ++
            ('T' :: (padZeros 2 (natDigits h) ++
              (':' :: (padZeros 2 (natDigits mi) ++
                (':' :: (padZeros 2 (natDigits s) ++
                  ('.' :: (padZeros 3 (natDigits ms) ++ ['Z'])))))))))))) := by
    obtain ⟨c0, t0, hct, hc0⟩ := toISOChars_head_digit y mo d h mi s ms hy
    rw [hct, decSigned_digit_head hc0, ← hct, toISOChars_flat]
    rw [decUnsigned_int (by rw [hab]; simp) hYd ?_ ?_]
    · rw [withExp_not_exp (by decide) (by decide)]
    · intro c hc
      simp only [List.head?_cons, Option.some_inj] at hc
      subst hc; decide
    · intro c hc
      simp only [List.head?_cons, Option.some_inj] at hc
      subst hc; decide
  rw [toNumberL_decFull toISOChars_nonspace ?_ ?_]
  · unfold decFull
    rw [hdec]
  · rw [toISOChars_flat, hab]
    simp
  · intro c rest heq
    rw [toISOChars_flat, hab, List.cons_append, List.cons_append] at heq
    injection heq with h1 h2
    injection h2 with h3 h4
    have hb : b.isDigit = true := hYd b (by rw [hab]; simp)
    rw [← h3]
    refine ⟨?_, ?_, ?_, ?_, ?_, ?_⟩ <;> exact isDigit_ne hb (by decide)

/-! ## The timestamp matcher -/

theorem takeD_sound :
    ∀ (k : Nat) (l a r : List Char), takeD k l = some (a, r) →
      l = a ++ r ∧ a.length = k ∧ ∀ c ∈ a, c.isDigit = true := by
  intro k
  induction k with
  | zero =>
    intro l a r h
    unfold takeD at h
    cases h
    exact ⟨rfl, rfl, by simp⟩
  | succ k ih =>
    intro l a r h
    cases l with
    | nil =>
      rw [show takeD (k + 1) ([] : List Char) = none from rfl] at h
      exact absurd h (by simp)
    | cons c t =>
      unfold takeD at h
      by_cases hc : c.isDigit = true
      · rw [if_pos hc] at h
        cases he : takeD k t with
        | none => rw [he] at h; exact absurd h (by simp)
        | some p =>
          rw [he] at h
          simp only [Option.map_some', Option.some_inj] at h
          obtain ⟨ht, hlen, hdig⟩ := ih t p.1 p.2 (by rw [he])
          cases h
          refine ⟨by rw [ht, List.cons_append], by simp [hlen], ?_⟩
          intro x hx
          rcases List.mem_cons.mp hx with h2 | h2
          · subst h2; exact hc
          · exact hdig x h2
      · rw [if_neg hc] at h
        exact absurd h (by simp)

set_option maxHeartbeats 2000000

theorem expectChar_sound {c : Char} {l r : List Char}
    (h : expectChar c l = some r) : l = c :: r := by
  cases l with
  | nil => exact absurd h (by rw [show expectChar c [] = none from rfl]; simp)
  | cons d t =>
    have h2 : (if d = c then some t else none) = some r := h
    by_cases hd : d = c
    · rw [if_pos hd] at h2
      cases h2
      rw [hd]
    · rw [if_neg hd] at h2
      exact absurd h2 (by simp)

theorem takeGroup_exact {ds : List Char} (h : ∀ c ∈ ds, c.isDigit = true)
    (sep : Char) (r : List Char) :
    takeGroup ds.length sep (ds ++ sep :: r) = some (ds, r) := by
  unfold takeGroup
  rw [takeD_exact h (sep :: r)]
  simp only [Option.some_bind, expectChar_cons, Option.map_some']

theorem takeGroup_sound {k : Nat} {sep : Char} {l a r : List Char}
    (h : takeGroup k sep l = some (a, r)) :
    l = a ++ sep :: r ∧ a.length = k ∧ ∀ c ∈ a, c.isDigit = true := by
  unfold takeGroup at h
  rw [Option.bind_eq_some] at h
  obtain ⟨p, hp, h⟩ := h
  rw [Option.map_eq_some'] at h
  obtain ⟨r2, hr2, h⟩ := h
  obtain ⟨hl, hlen, hdig⟩ := takeD_sound k l p.1 p.2 (by rw [hp])
  have hexp : p.2 = sep :: r2 := expectChar_sound hr2
  injection h with ha hr
  subst ha
  subst hr
  exact ⟨by rw [hl, hexp], hlen, hdig⟩

theorem matchTs_complete
    {g1 g2 g3 g4 g5 g6 dots g7 : List Char}
    (l1 : g1.length = 4) (l2 : g2.length = 2) (l3 : g3.length = 2)
    (l4 : g4.length = 2) (l5 : g5.length = 2) (l6 : g6.length = 2)
    (d1 : ∀ c ∈ g1, c.isDigit = true) (d2 : ∀ c ∈ g2, c.isDigit = true)
    (d3 : ∀ c ∈ g3, c.isDigit = true) (d4 : ∀ c ∈ g4, c.isDigit = true)
    (d5 : ∀ c ∈ g5, c.isDigit = true) (d6 : ∀ c ∈ g6, c.isDigit = true)
    (hdots : ∀ c ∈ dots, c = '.') (d7 : ∀ c ∈ g7, c.isDigit = true) :
    matchTs (g1 ++ '-' :: (g2 ++ '-' :: (g3 ++ 'T' :: (g4 ++ ':' :: (g5 ++ ':' ::
      (g6 ++ (dots ++ (g7 ++ ['Z'])))))))) =
      some (natOfDigits g1, natOfDigits g2, natOfDigits g3, natOfDigits g4,
        natOfDigits g5, natOfDigits g6, natOfDigits g7) := by
  have e1 := takeGroup_exact d1 '-' (g2 ++ '-' :: (g3 ++ 'T' :: (g4 ++ ':' ::
    (g5 ++ ':' :: (g6 ++ (dots ++ (g7 ++ ['Z'])))))))
  rw [l1] at e1
  have e2 := takeGroup_exact d2 '-' (g3 ++ 'T' :: (g4 ++ ':' ::
    (g5 ++ ':' :: (g6 ++ (dots ++ (g7 ++ ['Z']))))))
  rw [l2] at e2
  have e3 := takeGroup_exact d3 'T' (g4 ++ ':' ::
    (g5 ++ ':' :: (g6 ++ (dots ++ (g7 ++ ['Z'])))))
  rw [l3] at e3
  have e4 := takeGroup_exact d4 ':' (g5 ++ ':' :: (g6 ++ (dots ++ (g7 ++ ['Z']))))
  rw [l4] at e4
  have e5 := takeGroup_exact d5 ':' (g6 ++ (dots ++ (g7 ++ ['Z'])))
  rw [l5] at e5
  have e6 := takeD_exact d6 (dots ++ (g7 ++ ['Z']))
  rw [l6] at e6
  have hddots : ∀ c ∈ dots, (fun c => decide (c = '.')) c = true := by
    intro c hc
    simp [hdots c hc]
  have hhead : ∀ c, (g7 ++ ['Z']).head? = some c →
      (fun c => decide (c = '.')) c = false := by
    intro c hc
    cases g7 with
    | nil =>
      simp only [List.nil_append, List.head?_cons, Option.some_inj] at hc
      subst hc; decide
    | cons a t =>
      simp only [List.cons_append, List.head?_cons, Option.some_inj] at hc
      subst hc
      simp only [decide_eq_false_iff_not]
      exact isDigit_ne (d7 a (by simp)) (by decide)
  have edots := takeWhile_append_all (p := fun c => decide (c = '.')) hddots hhead
  have hZhead : ∀ c, (['Z'] : List Char).head? = some c → c.isDigit = false := by
    intro c hc
    simp only [List.head?_cons, Option.some_inj] at hc
    subst hc; decide
  have e7 := takeWhile_append_all (p := Char.isDigit) d7 hZhead
  unfold matchTs
  simp only [e1, Option.some_bind, e2, e3, e4, e5, e6, edots.2, e7.1, e7.2]

theorem matchTs_sound {l : List Char} {t : Nat × Nat × Nat × Nat × Nat × Nat × Nat}
    (h : matchTs l = some t) :
    ∃ g1 g2 g3 g4 g5 g6 dots g7 : List Char,
      l = g1 ++ '-' :: (g2 ++ '-' :: (g3 ++ 'T' :: (g4 ++ ':' :: (g5 ++ ':' ::
        (g6 ++ (dots ++ (g7 ++ ['Z']))))))) ∧
      g1.length = 4 ∧ g2.length = 2 ∧ g3.length = 2 ∧ g4.length = 2 ∧
      g5.length = 2 ∧ g6.length = 2 ∧
      (∀ c ∈ g1, c.isDigit = true) ∧ (∀ c ∈ g2, c.isDigit = true) ∧
      (∀ c ∈ g3, c.isDigit = true) ∧ (∀ c ∈ g4, c.isDigit = true) ∧
      (∀ c ∈ g5, c.isDigit = true) ∧ (∀ c ∈ g6, c.isDigit = true) ∧
      (∀ c ∈ dots, c = '.') ∧ (∀ c ∈ g7, c.isDigit = true) ∧
      t = (natOfDigits g1, natOfDigits g2, natOfDigits g3, natOfDigits g4,
        natOfDigits g5, natOfDigits g6, natOfDigits g7) := by
  unfold matchTs at h
  rw [Option.bind_eq_some] at h
  obtain ⟨⟨g1, l1⟩, h1, h⟩ := h
  rw [Option.bind_eq_some] at h
  obtain ⟨⟨g2, l2⟩, h2, h⟩ := h
  rw [Option.bind_eq_some] at h
  obtain ⟨⟨g3, l3⟩, h3, h⟩ := h
  rw [Option.bind_eq_some] at h
  obtain ⟨⟨g4, l4⟩, h4, h⟩ := h
  rw [Option.bind_eq_some] at h
  obtain ⟨⟨g5, l5⟩, h5, h⟩ := h
  rw [Option.bind_eq_some] at h
  obtain ⟨⟨g6, l6⟩, h6, h⟩ := h
  have hs1 : l = g1 ++ '-' :: l1 := (takeGroup_sound h1).1
  have hlen1 : g1.length = 4 := (takeGroup_sound h1).2.1
  have hd1 : ∀ c ∈ g1, c.isDigit = true := (takeGroup_sound h1).2.2
  have hs2 : l1 = g2 ++ '-' :: l2 := (takeGroup_sound h2).1
  have hlen2 : g2.length = 2 := (takeGroup_sound h2).2.1
  have hd2 : ∀ c ∈ g2, c.isDigit = true := (takeGroup_sound h2).2.2
  have hs3 : l2 = g3 ++ 'T' :: l3 := (takeGroup_sound h3).1
  have hlen3 : g3.length = 2 := (takeGroup_sound h3).2.1
  have hd3 : ∀ c ∈ g3, c.isDigit = true := (takeGroup_sound h3).2.2
  have hs4 : l3 = g4 ++ ':' :: l4 := (takeGroup_sound h4).1
  have hlen4 : g4.length = 2 := (takeGroup_sound h4).2.1
  have hd4 : ∀ c ∈ g4, c.isDigit = true := (takeGroup_sound h4).2.2
  have hs5 : l4 = g5 ++ ':' :: l5 := (takeGroup_sound h5).1
  have hlen5 : g5.length = 2 := (takeGroup_sound h5).2.1
  have hd5 : ∀ c ∈ g5, c.isDigit = true := (takeGroup_sound h5).2.2
  have hs6 : l5 = g6 ++ l6 := (takeD_sound 2 l5 g6 l6 h6).1
  have hlen6 : g6.length = 2 := (takeD_sound 2 l5 g6 l6 h6).2.1
  have hd6 : ∀ c ∈ g6, c.isDigit = true := (takeD_sound 2 l5 g6 l6 h6).2.2
  -- the tail: dots, fraction digits, and the final 'Z'
  have h' : (match (l6.dropWhile (fun c => c = '.')).dropWhile Char.isDigit with
      | ['Z'] => some (natOfDigits g1, natOfDigits g2, natOfDigits g3,
          natOfDigits g4, natOfDigits g5, natOfDigits g6,
          natOfDigits ((l6.dropWhile (fun c => c = '.')).takeWhile Char.isDigit))
      | _ => none) = some t := h
  have hsplit : l6.takeWhile (fun c => c = '.') ++ l6.dropWhile (fun c => c = '.') = l6 :=
    List.takeWhile_append_dropWhile _ _
  have hdots : ∀ c ∈ l6.takeWhile (fun c => c = '.'), c = '.' := by
    intro c hc
    have := List.mem_takeWhile_imp hc
    simpa using this
  have hsplit2 : (l6.dropWhile (fun c => c = '.')).takeWhile Char.isDigit ++
      (l6.dropWhile (fun c => c = '.')).dropWhile Char.isDigit =
      l6.dropWhile (fun c => c = '.') :=
    List.takeWhile_append_dropWhile _ _
  have hg7 : ∀ c ∈ (l6.dropWhile (fun c => c = '.')).takeWhile Char.isDigit,
      c.isDigit = true := by
    intro c hc
    exact List.mem_takeWhile_imp hc
  have hZ : (l6.dropWhile (fun c => c = '.')).dropWhile Char.isDigit = ['Z'] ∧
      t = (natOfDigits g1, natOfDigits g2, natOfDigits g3, natOfDigits g4,
        natOfDigits g5, natOfDigits g6,
        natOfDigits ((l6.dropWhile (fun c => c = '.')).takeWhile Char.isDigit)) := by
    split at h'
    · rename_i heq
      cases h'
      exact ⟨heq, rfl⟩
    · exact absurd h' (by simp)
  refine ⟨g1, g2, g3, g4, g5, g6, l6.takeWhile (fun c => c = '.'),
    (l6.dropWhile (fun c => c = '.')).takeWhile Char.isDigit, ?_,
    hlen1, hlen2, hlen3, hlen4, hlen5, hlen6,
    hd1, hd2, hd3, hd4, hd5, hd6, hdots, hg7, hZ.2⟩
  rw [hs1, hs2, hs3, hs4, hs5, hs6]
  have hl6e : l6 = l6.takeWhile (fun c => c = '.') ++
      ((l6.dropWhile (fun c => c = '.')).takeWhile Char.isDigit ++ ['Z']) := by
    conv_lhs => rw [← hsplit]
    rw [← hZ.1, hsplit2]
  rw [← hl6e]


theorem matchTs_iso (y : Nat) (mo : Int) (d h mi s ms : Nat)
    (hy : y ≤ 9999) (hmo : (mo + 1).toNat ≤ 99) (hd : d ≤ 99) (hh : h ≤ 99)
    (hmi : mi ≤ 99) (hs : s ≤ 99) (hms : ms ≤ 999) :
    matchTs (toISOChars y mo d h mi s ms) =
      some (y, (mo + 1).toNat, d, h, mi, s, ms) := by
  rw [toISOChars_flat]
  have hp4 : (10 : Nat) ^ 4 = 10000 := by norm_num
  have hp2 : (10 : Nat) ^ 2 = 100 := by norm_num
  have hp3 : (10 : Nat) ^ 3 = 1000 := by norm_num
  have hdots1 : ∀ c ∈ (['.'] : List Char), c = '.' := by
    intro c hc
    simpa using hc
  have hfrac1 : ∀ c ∈ padZeros 3 (natDigits ms), c.isDigit = true :=
    padZeros_all_digit (natDigits_all_digit _)
  have hcomp := matchTs_complete
    (padZeros_length (natDigits_length_le y 4 (by omega) (by omega)))
    (padZeros_length (natDigits_length_le ((mo + 1).toNat) 2 (by omega) (by omega)))
    (padZeros_length (natDigits_length_le d 2 (by omega) (by omega)))
    (padZeros_length (natDigits_length_le h 2 (by omega) (by omega)))
    (padZeros_length (natDigits_length_le mi 2 (by omega) (by omega)))
    (padZeros_length (natDigits_length_le s 2 (by omega) (by omega)))
    (padZeros_all_digit (natDigits_all_digit _))
    (padZeros_all_digit (natDigits_all_digit _))
    (padZeros_all_digit (natDigits_all_digit _))
    (padZeros_all_digit (natDigits_all_digit _))
    (padZeros_all_digit (natDigits_all_digit _))
    (padZeros_all_digit (natDigits_all_digit _))
    hdots1 hfrac1
  simp only [natOfDigits_padZeros, natOfDigits_natDigits] at hcomp
  rw [← hcomp]
  rfl

theorem parseDates_iso (y : Nat) (mo : Int) (d h mi s ms : Nat)
    (hy : y ≤ 9999) (hmo0 : 0 ≤ mo) (hmo1 : mo ≤ 11) (hd : d ≤ 99) (hh : h ≤ 99)
    (hmi : mi ≤ 99) (hs : s ≤ 99) (hms : ms ≤ 999) :
    parseDates (String.mk (toISOChars y mo d h mi s ms)) =
      some (.vDate y mo d h mi s ms) := by
  have hmon : (mo + 1).toNat ≤ 99 := by omega
  unfold parseDates
  have hdata : (String.mk (toISOChars y mo d h mi s ms)).data =
    toISOChars y mo d h mi s ms := rfl
  rw [hdata, matchTs_iso y mo d h mi s ms hy hmon hd hh hmi hs hms]
  simp only [Option.map_some', Option.some_inj]
  have : (((mo + 1).toNat : Int)) - 1 = mo := by omega
  rw [this]

theorem parseXmlValue_iso (y : Nat) (mo : Int) (d h mi s ms : Nat)
    (hy : y ≤ 9999) (hmo0 : 0 ≤ mo) (hmo1 : mo ≤ 11) (hd : d ≤ 99) (hh : h ≤ 99)
    (hmi : mi ≤ 99) (hs : s ≤ 99) (hms : ms ≤ 999) :
    parseXmlValue (String.mk (toISOChars y mo d h mi s ms)) =
      .vDate y mo d h mi s ms := by
  unfold parseXmlValue
  obtain ⟨c, t, hct, hcd⟩ := toISOChars_head_digit y mo d h mi s ms hy
  have hbool : parseBooleans (String.mk (toISOChars y mo d h mi s ms)) = none := by
    unfold parseBooleans
    have hdata : (String.mk (toISOChars y mo d h mi s ms)).data =
      toISOChars y mo d h mi s ms := rfl
    rw [hdata, hct]
    obtain ⟨he1, he2⟩ := ciEq_head_false (Or.inl hcd)
    rw [he1, he2]
    simp
  have hnum : parseNumbers (String.mk (toISOChars y mo d h mi s ms)) = none := by
    unfold parseNumbers
    have hdata : (String.mk (toISOChars y mo d h mi s ms)).data =
      toISOChars y mo d h mi s ms := rfl
    rw [hdata, toISOChars_toNumber hy]
    simp [JSNum.sub, JSNum.addOne, JSNum.geZero]
  rw [hbool, hnum, parseDates_iso y mo d h mi s ms hy hmo0 hmo1 hd hh hmi hs hms]

/-! ## Association lists and rows -/

theorem alistGet_set_self {α : Type} (l : List (String × α)) (k : String) (v : α) :
    alistGet (alistSet l k v) k = some v := by
  unfold alistSet
  by_cases ha : l.any (fun p => p.1 = k)
  · rw [if_pos ha]
    induction l with
    | nil => simp at ha
    | cons p t ih =>
      by_cases hp : p.1 = k
      · unfold alistGet
        simp only [List.map_cons, if_pos hp]
        rw [List.find?_cons_of_pos _ (by simp)]
        rfl
      · simp only [List.any_cons, Bool.or_eq_true, decide_eq_true_eq] at ha
        rcases ha with ha | ha
        · exact absurd ha hp
        · unfold alistGet
          simp only [List.map_cons, if_neg hp]
          rw [List.find?_cons_of_neg _ (by simpa using hp)]
          exact ih (by simpa using ha)
  · rw [if_neg ha]
    induction l with
    | nil =>
      unfold alistGet
      rw [List.nil_append, List.find?_cons_of_pos _ (by simp)]
      rfl
    | cons p t ih =>
      simp only [List.any_cons, Bool.or_eq_true, decide_eq_true_eq, not_or] at ha
      unfold alistGet
      rw [List.cons_append, List.find?_cons_of_neg _ (by simpa using ha.1)]
      exact ih (by simpa using ha.2)

theorem alistGet_map_replace {α : Type} {l : List (String × α)} {k k2 : String}
    {v : α} (hne : k2 ≠ k) :
    alistGet (l.map (fun p => if p.1 = k then (k, v) else p)) k2 = alistGet l k2 := by
  induction l with
  | nil => rfl
  | cons p t ih =>
    unfold alistGet
    by_cases hp : p.1 = k
    · simp only [List.map_cons, if_pos hp]
      rw [List.find?_cons_of_neg _ (by simpa using Ne.symm hne),
        List.find?_cons_of_neg _ (by rw [hp]; simpa using Ne.symm hne)]
      exact ih
    · simp only [List.map_cons, if_neg hp]
      by_cases hpk : p.1 = k2
      · rw [List.find?_cons_of_pos _ (by simpa using hpk),
          List.find?_cons_of_pos _ (by simpa using hpk)]
      · rw [List.find?_cons_of_neg _ (by simpa using hpk),
          List.find?_cons_of_neg _ (by simpa using hpk)]
        exact ih

theorem alistGet_append_single {α : Type} {l : List (String × α)} {k k2 : String}
    {v : α} (hne : k2 ≠ k) :
    alistGet (l ++ [(k, v)]) k2 = alistGet l k2 := by
  induction l with
  | nil =>
    unfold alistGet
    rw [List.nil_append, List.find?_cons_of_neg _ (by simpa using Ne.symm hne)]
  | cons p t ih =>
    unfold alistGet
    by_cases hpk : p.1 = k2
    · rw [List.cons_append, List.find?_cons_of_pos _ (by simpa using hpk),
        List.find?_cons_of_pos _ (by simpa using hpk)]
    · rw [List.cons_append, List.find?_cons_of_neg _ (by simpa using hpk),
        List.find?_cons_of_neg _ (by simpa using hpk)]
      exact ih

theorem alistGet_set_other {α : Type} (l : List (String × α)) (k k2 : String)
    (v : α) (hne : k2 ≠ k) : alistGet (alistSet l k v) k2 = alistGet l k2 := by
  unfold alistSet
  by_cases ha : l.any (fun p => p.1 = k)
  · rw [if_pos ha]
    exact alistGet_map_replace hne
  · rw [if_neg ha]
    exact alistGet_append_single hne

theorem alistSet_append_of_not_mem {α : Type} {l : List (String × α)} {k : String}
    (v : α) (h : ∀ q ∈ l, q.1 ≠ k) : alistSet l k v = l ++ [(k, v)] := by
  unfold alistSet
  rw [if_neg]
  intro ha
  rw [List.any_eq_true] at ha
  obtain ⟨q, hq, hq2⟩ := ha
  exact h q hq (by simpa using hq2)

theorem rowGet_rowSet_self (r : Row) (k : String) (v : Value) :
    rowGet (rowSet r k v) k = some v :=
  alistGet_set_self r k v

theorem rowGet_rowDelete_self (r : Row) (k : String) :
    rowGet (rowDelete r k) k = none := by
  unfold rowGet rowDelete alistGet
  induction r with
  | nil => rfl
  | cons p t ih =>
    by_cases hp : p.1 = k
    · rw [List.filter_cons_of_neg (by simpa using hp)]
      exact ih
    · rw [List.filter_cons_of_pos (by simpa using hp),
        List.find?_cons_of_neg _ (by simpa using hp)]
      exact ih

/-- Rebuilding a row by repeated property writes over fresh keys recovers the
row (JavaScript object construction from an ordered list of distinct keys). -/
theorem foldl_rowSet_build (r : Row) :
    ∀ (acc : Row), (∀ p ∈ r, ∀ q ∈ acc, q.1 ≠ p.1) → (r.map Prod.fst).Nodup →
      r.foldl (fun acc p => rowSet acc p.1 p.2) acc = acc ++ r := by
  induction r with
  | nil => intro acc _ _; simp
  | cons p t ih =>
    intro acc hdisj hnodup
    show t.foldl _ (rowSet acc p.1 p.2) = _
    have hset : rowSet acc p.1 p.2 = acc ++ [(p.1, p.2)] :=
      alistSet_append_of_not_mem _ (fun q hq => hdisj p (by simp) q hq)
    rw [hset]
    simp only [List.map_cons, List.nodup_cons] at hnodup
    have hih := ih (acc ++ [(p.1, p.2)]) ?_ hnodup.2
    · rw [hih, List.append_assoc]
      simp
    · intro p2 hp2 q hq
      rcases List.mem_append.mp hq with hq1 | hq1
      · exact hdisj p2 (by simp [hp2]) q hq1
      · simp only [List.mem_singleton] at hq1
        subst hq1
        intro hc
        exact hnodup.1 (by rw [hc]; exact List.mem_map_of_mem Prod.fst hp2)

/-! ## The markup round trip, value by value -/

theorem serializeValue_goodPrim {v : Value} (h : goodPrim v = true) :
    ∃ s, serializeValue v = some s ∧ parseXmlValue s = v := by
  cases v with
  | vBool b =>
    cases b
    · exact ⟨"false", rfl, by decide⟩
    · exact ⟨"true", rfl, by decide⟩
  | vNum n =>
    cases n with
    | nan => exact Bool.noConfusion h
    | inf p => exact Bool.noConfusion h
    | fin q =>
      have hq : printableQ q = true := h
      obtain ⟨hbool, hnum⟩ := print_parse_num hq
      refine ⟨String.mk (finToChars q), rfl, ?_⟩
      unfold parseXmlValue
      rw [hbool, hnum]
  | vDate y mo d hr mi s ms =>
    simp only [goodPrim, Bool.and_eq_true, decide_eq_true_eq] at h
    obtain ⟨⟨⟨⟨⟨⟨⟨⟨hy, hmo0⟩, hmo1⟩, hd1⟩, hd2⟩, hh⟩, hmi⟩, hs⟩, hms⟩ := h
    refine ⟨String.mk (toISOChars y mo d hr mi s ms), rfl, ?_⟩
    exact parseXmlValue_iso y mo d hr mi s ms hy hmo0 hmo1 (by omega) (by omega)
      (by omega) (by omega) (by omega)
  | vNull => exact Bool.noConfusion h
  | vStr s => exact Bool.noConfusion h
  | vTagged t v2 => exact Bool.noConfusion h

theorem serializeXmlField_goodValue {nm : String} {v : Value}
    (h : goodValue v = true) :
    ∃ fld, serializeXmlField nm v = some fld ∧ fld.tag = nm ∧
      parseXmlField fld = v := by
  cases v with
  | vTagged t inner =>
    simp only [goodValue, Bool.and_eq_true, decide_eq_true_eq] at h
    obtain ⟨ht, hprim⟩ := h
    obtain ⟨s, hser, hparse⟩ := serializeValue_goodPrim hprim
    refine ⟨⟨nm, some t, s⟩, ?_, rfl, ?_⟩
    · show (serializeValue inner).map _ = _
      rw [hser]
      rfl
    · unfold parseXmlField
      simp only [if_neg ht]
      rw [hparse]
  | vNull => exact Bool.noConfusion h
  | vBool b =>
    obtain ⟨s, hser, hparse⟩ := serializeValue_goodPrim (v := .vBool b) h
    refine ⟨⟨nm, none, s⟩, ?_, rfl, ?_⟩
    · show (serializeValue (Value.vBool b)).map _ = _
      rw [hser]
      rfl
    · unfold parseXmlField
      rw [hparse]
  | vNum n =>
    obtain ⟨s, hser, hparse⟩ := serializeValue_goodPrim (v := .vNum n) h
    refine ⟨⟨nm, none, s⟩, ?_, rfl, ?_⟩
    · show (serializeValue (Value.vNum n)).map _ = _
      rw [hser]
      rfl
    · unfold parseXmlField
      rw [hparse]
  | vStr s2 => exact Bool.noConfusion h
  | vDate y mo d hr mi s ms =>
    obtain ⟨s3, hser, hparse⟩ :=
      serializeValue_goodPrim (v := .vDate y mo d hr mi s ms) h
    refine ⟨⟨nm, none, s3⟩, ?_, rfl, ?_⟩
    · show (serializeValue (Value.vDate y mo d hr mi s ms)).map _ = _
      rw [hser]
      rfl
    · unfold parseXmlField
      rw [hparse]

theorem parseXmlRow_serializeXmlRow_aux :
    ∀ (r : Row) (acc : Row), (r.map Prod.fst).Nodup →
      (∀ p ∈ r, goodValue p.2 = true) →
      (∀ p ∈ r, p.1 ≠ "__proto__") →
      (∀ p ∈ r, ∀ q ∈ acc, q.1 ≠ p.1) →
      (serializeXmlRow r).foldl
        (fun acc fld => rowAssign acc fld.tag (parseXmlField fld)) acc =
        acc ++ r := by
  intro r
  induction r with
  | nil => intro acc _ _ _ _; simp [serializeXmlRow]
  | cons p t ih =>
    intro acc hnodup hgood hproto hdisj
    obtain ⟨fld, hser, htag, hparse⟩ :=
      @serializeXmlField_goodValue p.1 p.2 (hgood p (by simp))
    have hrow : serializeXmlRow (p :: t) = fld :: serializeXmlRow t := by
      unfold serializeXmlRow
      rw [List.filterMap_cons]
      rw [show serializeXmlField p.1 p.2 = some fld from hser]
    rw [hrow]
    show (serializeXmlRow t).foldl _ (rowAssign acc fld.tag (parseXmlField fld)) = _
    rw [htag, hparse]
    have hassign : rowAssign acc p.1 p.2 = rowSet acc p.1 p.2 :=
      if_neg (hproto p (by simp))
    rw [hassign]
    have hset : rowSet acc p.1 p.2 = acc ++ [(p.1, p.2)] :=
      alistSet_append_of_not_mem _ (fun q hq => hdisj p (by simp) q hq)
    rw [hset]
    simp only [List.map_cons, List.nodup_cons] at hnodup
    have hih := ih (acc ++ [(p.1, p.2)]) hnodup.2
      (fun p2 hp2 => hgood p2 (by simp [hp2]))
      (fun p2 hp2 => hproto p2 (by simp [hp2])) ?_
    · rw [hih, List.append_assoc]
      simp
    · intro p2 hp2 q hq
      rcases List.mem_append.mp hq with hq1 | hq1
      · exact hdisj p2 (by simp [hp2]) q hq1
      · simp only [List.mem_singleton] at hq1
        subst hq1
        intro hc
        exact hnodup.1 (by rw [hc]; exact List.mem_map_of_mem Prod.fst hp2)

theorem parseXmlRow_serializeXmlRow {r : Row} (h : goodRow r = true) :
    parseXmlRow (serializeXmlRow r) = r := by
  simp only [goodRow, Bool.and_eq_true, decide_eq_true_eq, List.all_eq_true] at h
  have := parseXmlRow_serializeXmlRow_aux r [] h.1
    (fun p hp => ((h.2 p hp).1))
    (fun p hp => ((h.2 p hp).2)) (by simp)
  simpa [parseXmlRow] using this

/-- The markup adapter round-trips every table whose rows have distinct
column names and good values. -/
theorem parseXml_serializeXml {dt : Table}
    (h : ∀ r ∈ dt.rows, goodRow r = true) :
    (parseXml (serializeXml dt)).rows = dt.rows := by
  show List.map parseXmlRow (dt.rows.map serializeXmlRow) = dt.rows
  rw [List.map_map]
  conv_rhs => rw [← List.map_id dt.rows]
  apply List.map_congr_left
  intro r hr
  exact parseXmlRow_serializeXmlRow (h r hr)

/-! ## `lookup` -/

theorem lookupResolve_noCache (col : String) (f : Row → Option Value)
    (cache : Cache) (r : Row) :
    lookupResolve col f false cache r = (f r, cache, true) := by
  unfold lookupResolve
  cases lookupKey col r with
  | none => rfl
  | some k => rfl

theorem lookup_noCache (col : String) (f : Row → Option Value) :
    ∀ (rows : List Row) (cache : Cache),
      (lookupAux col f false rows cache).1 =
        rows.map (fun r => lookupWriteback r col (f r)) := by
  intro rows
  induction rows with
  | nil => intro cache; rfl
  | cons r rs ih =>
    intro cache
    show (lookupWriteback r col (lookupResolve col f false cache r).1 ::
      (lookupAux col f false rs (lookupResolve col f false cache r).2.1).1, _).1 = _
    rw [lookupResolve_noCache]
    simp only [List.map_cons]
    rw [ih cache]

theorem lookup_const_none_aux (col : String) :
    ∀ (rows : List Row) (cache : Cache), (∀ k, cacheGet cache k = none) →
      (lookupAux col (fun _ => none) true rows cache).1 =
        rows.map (fun r => rowDelete r col) := by
  intro rows
  induction rows with
  | nil => intro cache _; rfl
  | cons r rs ih =>
    intro cache hcache
    show (lookupWriteback r col (lookupResolve col (fun _ => none) true cache r).1 ::
      (lookupAux col (fun _ => none) true rs
        (lookupResolve col (fun _ => none) true cache r).2.1).1, _).1 = _
    have hres : lookupResolve col (fun _ => none) true cache r =
        (none, (match lookupKey col r with
                | some k => alistSet cache k none
                | none => cache), true) := by
      unfold lookupResolve
      cases lookupKey col r with
      | none => rfl
      | some k => simp [hcache k]
    rw [hres]
    simp only [List.map_cons]
    have hcache2 : ∀ k, cacheGet (match lookupKey col r with
        | some k2 => alistSet cache k2 none
        | none => cache) k = none := by
      intro k
      cases lookupKey col r with
      | none => exact hcache k
      | some k2 =>
        by_cases hk : k = k2
        · subst hk
          show (alistGet (alistSet cache k none) k).join = none
          rw [alistGet_set_self]
          rfl
        · show (alistGet (alistSet cache k2 none) k).join = none
          rw [alistGet_set_other cache k2 k none hk]
          exact hcache k
    rw [ih _ hcache2]
    rfl

theorem lookupInvoked_sublist (col : String) (f : Row → Option Value) (u : Bool) :
    ∀ (rows : List Row) (cache : Cache),
      ((lookupAux col f u rows cache).2).Sublist rows := by
  intro rows
  induction rows with
  | nil => intro cache; exact List.Sublist.refl []
  | cons r rs ih =>
    intro cache
    show ((lookupWriteback r col (lookupResolve col f u cache r).1 ::
        (lookupAux col f u rs (lookupResolve col f u cache r).2.1).1,
        if (lookupResolve col f u cache r).2.2 then
          r :: (lookupAux col f u rs (lookupResolve col f u cache r).2.1).2
        else (lookupAux col f u rs (lookupResolve col f u cache r).2.1).2).2).Sublist
      (r :: rs)
    by_cases hb : (lookupResolve col f u cache r).2.2 = true
    · rw [if_pos hb]
      exact (ih _).cons₂ r
    · rw [if_neg hb]
      exact (ih _).cons r

theorem firstKeyRow_append (col k : String) (l1 l2 : List Row) :
    firstKeyRow col k (l1 ++ l2) =
      match firstKeyRow col k l1 with
      | some p => some p
      | none => firstKeyRow col k l2 := by
  unfold firstKeyRow
  induction l1 with
  | nil => simp
  | cons r t ih =>
    by_cases hr : lookupKey col r = some k
    · rw [List.cons_append, List.find?_cons_of_pos _ (by simpa using hr),
        List.find?_cons_of_pos _ (by simpa using hr)]
    · rw [List.cons_append, List.find?_cons_of_neg _ (by simpa using hr),
        List.find?_cons_of_neg _ (by simpa using hr)]
      exact ih

/-- After the loop has processed `processed`, the memo holds exactly the
resolution of the first row carrying each (present, string-coerced) key. -/
theorem lookupAux_result_spec (col : String) (f : Row → Option Value)
    (hf : ∀ r, (f r).isSome = true) :
    ∀ (rows processed : List Row) (cache : Cache),
      (∀ k, cacheGet cache k = (firstKeyRow col k processed).bind f) →
      ∀ (i : Nat) (r : Row) (k : String), rows[i]? = some r →
        lookupKey col r = some k →
        ∃ p, firstKeyRow col k (processed ++ rows) = some p ∧
          (lookupAux col f true rows cache).1[i]? =
            some (lookupWriteback r col (f p)) := by
  intro rows
  induction rows with
  | nil =>
    intro processed cache hinv i r k hi
    simp at hi
  | cons r0 rs ih =>
    intro processed cache hinv i r k hi hk
    have hstep : lookupAux col f true (r0 :: rs) cache =
        (lookupWriteback r0 col (lookupResolve col f true cache r0).1 ::
          (lookupAux col f true rs (lookupResolve col f true cache r0).2.1).1,
        if (lookupResolve col f true cache r0).2.2 then
          r0 :: (lookupAux col f true rs (lookupResolve col f true cache r0).2.1).2
        else (lookupAux col f true rs (lookupResolve col f true cache r0).2.1).2) := rfl
    cases i with
    | zero =>
      simp only [List.getElem?_cons_zero, Option.some_inj] at hi
      subst hi
      cases hfr : firstKeyRow col k processed with
      | some p =>
        -- cache hit: the memoised value is the resolution of `p`
        obtain ⟨v, hv⟩ := Option.isSome_iff_exists.mp (hf p)
        have hget : cacheGet cache k = some v := by
          rw [hinv k, hfr]
          simpa using hv
        have hres : lookupResolve col f true cache r0 = (some v, cache, false) := by
          simp only [lookupResolve, hk, hget, if_pos]
        refine ⟨p, ?_, ?_⟩
        · rw [firstKeyRow_append, hfr]
        · rw [hstep]
          simp only [List.getElem?_cons_zero, Option.some_inj]
          rw [hres, hv]
      | none =>
        have hget : cacheGet cache k = none := by
          rw [hinv k, hfr]
          rfl
        have hres : lookupResolve col f true cache r0 =
            (f r0, alistSet cache k (f r0), true) := by
          simp only [lookupResolve, hk, hget, if_pos]
        refine ⟨r0, ?_, ?_⟩
        · rw [firstKeyRow_append, hfr]
          unfold firstKeyRow
          rw [List.find?_cons_of_pos _ (by simpa using hk)]
        · rw [hstep]
          simp only [List.getElem?_cons_zero, Option.some_inj]
          rw [hres]
    | succ i2 =>
      simp only [List.getElem?_cons_succ] at hi
      -- establish the invariant for the next step's cache
      have hnext : ∀ k2, cacheGet (lookupResolve col f true cache r0).2.1 k2 =
          (firstKeyRow col k2 (processed ++ [r0])).bind f := by
        intro k2
        cases hk0 : lookupKey col r0 with
        | none =>
          have hres : lookupResolve col f true cache r0 = (f r0, cache, true) := by
            simp only [lookupResolve, hk0]
          rw [hres]
          rw [hinv k2, firstKeyRow_append]
          cases hfp : firstKeyRow col k2 processed with
          | some p => rfl
          | none =>
            unfold firstKeyRow
            rw [List.find?_cons_of_neg _ (by simp [hk0])]
            rfl
        | some k0 =>
          cases hget : cacheGet cache k0 with
          | some v =>
            have hres : lookupResolve col f true cache r0 = (some v, cache, false) := by
              simp only [lookupResolve, hk0, hget, if_pos]
            rw [hres, hinv k2, firstKeyRow_append]
            have hfp0 : firstKeyRow col k0 processed ≠ none := by
              intro hc
              rw [hinv k0, hc] at hget
              exact Option.noConfusion hget
            by_cases hk2 : k2 = k0
            · subst hk2
              cases hfp : firstKeyRow col k2 processed with
              | some p => rfl
              | none => exact absurd hfp hfp0
            · cases hfp : firstKeyRow col k2 processed with
              | some p => rfl
              | none =>
                unfold firstKeyRow
                rw [List.find?_cons_of_neg _ (by simp [hk0, Ne.symm hk2])]
                rfl
          | none =>
            have hres : lookupResolve col f true cache r0 =
                (f r0, alistSet cache k0 (f r0), true) := by
              simp only [lookupResolve, hk0, hget, if_pos]
            rw [hres]
            by_cases hk2 : k2 = k0
            · subst hk2
              show (alistGet (alistSet cache k2 (f r0)) k2).join = _
              rw [alistGet_set_self]
              rw [firstKeyRow_append]
              have hfp0 : firstKeyRow col k2 processed = none := by
                cases hfp : firstKeyRow col k2 processed with
                | none => rfl
                | some p =>
                  rw [hinv k2, hfp] at hget
                  obtain ⟨v, hv⟩ := Option.isSome_iff_exists.mp (hf p)
                  rw [show (some p).bind f = f p from rfl, hv] at hget
                  exact Option.noConfusion hget
              rw [hfp0]
              unfold firstKeyRow
              rw [List.find?_cons_of_pos _ (by simpa using hk0)]
              rfl
            · show (alistGet (alistSet cache k0 (f r0)) k2).join = _
              rw [alistGet_set_other cache k0 k2 (f r0) hk2]
              rw [show (alistGet cache k2).join = cacheGet cache k2 from rfl]
              rw [hinv k2, firstKeyRow_append]
              cases hfp : firstKeyRow col k2 processed with
              | some p => rfl
              | none =>
                unfold firstKeyRow
                rw [List.find?_cons_of_neg _ (by simp [hk0, Ne.symm hk2])]
                rfl
      obtain ⟨p, hp1, hp2⟩ := ih (processed ++ [r0])
        (lookupResolve col f true cache r0).2.1 hnext i2 r k hi hk
      refine ⟨p, ?_, ?_⟩
      · have he : processed ++ r0 :: rs = (processed ++ [r0]) ++ rs := by simp
        rw [he]
        exact hp1
      · rw [hstep]
        simpa using hp2

/-- With caching on and a total resolver, no two invocations of the resolver
happen on rows whose (present) keys coerce to the same memo key. -/
theorem lookupAux_invoked_spec (col : String) (f : Row → Option Value)
    (hf : ∀ r, (f r).isSome = true) :
    ∀ (rows : List Row) (cache : Cache),
      (((lookupAux col f true rows cache).2).filterMap (lookupKey col)).Nodup ∧
      ∀ k, k ∈ ((lookupAux col f true rows cache).2).filterMap (lookupKey col) →
        cacheGet cache k = none := by
  intro rows
  induction rows with
  | nil => intro cache; exact ⟨List.nodup_nil, by simp [lookupAux]⟩
  | cons r0 rs ih =>
    intro cache
    have hstep : (lookupAux col f true (r0 :: rs) cache).2 =
        (if (lookupResolve col f true cache r0).2.2 then
          r0 :: (lookupAux col f true rs (lookupResolve col f true cache r0).2.1).2
        else (lookupAux col f true rs (lookupResolve col f true cache r0).2.1).2) := rfl
    cases hk0 : lookupKey col r0 with
    | none =>
      have hres : lookupResolve col f true cache r0 = (f r0, cache, true) := by
        simp only [lookupResolve, hk0]
      rw [hstep, hres]
      simp only [if_true]
      rw [List.filterMap_cons, hk0]
      exact ih cache
    | some k0 =>
      cases hget : cacheGet cache k0 with
      | some v =>
        have hres : lookupResolve col f true cache r0 = (some v, cache, false) := by
          simp only [lookupResolve, hk0, hget, if_pos]
        rw [hstep, hres]
        simp only [Bool.false_eq_true, if_false]
        exact ih cache
      | none =>
        have hres : lookupResolve col f true cache r0 =
            (f r0, alistSet cache k0 (f r0), true) := by
          simp only [lookupResolve, hk0, hget, if_pos]
        rw [hstep, hres]
        simp only [if_true]
        rw [List.filterMap_cons, hk0]
        obtain ⟨ihn, ihc⟩ := ih (alistSet cache k0 (f r0))
        constructor
        · rw [List.nodup_cons]
          refine ⟨?_, ihn⟩
          intro hmem
          have := ihc k0 hmem
          rw [show cacheGet (alistSet cache k0 (f r0)) k0 =
            (alistGet (alistSet cache k0 (f r0)) k0).join from rfl,
            alistGet_set_self] at this
          obtain ⟨v, hv⟩ := Option.isSome_iff_exists.mp (hf r0)
          rw [show (some (f r0)).join = f r0 from rfl, hv] at this
          exact Option.noConfusion this
        · intro k hkmem
          rcases List.mem_cons.mp hkmem with hk1 | hk1
          · subst hk1; exact hget
          · have := ihc k hk1
            by_cases hkk : k = k0
            · subst hkk; exact hget
            · rw [show cacheGet (alistSet cache k0 (f r0)) k =
                (alistGet (alistSet cache k0 (f r0)) k).join from rfl,
                alistGet_set_other cache k0 k (f r0) hkk] at this
              exact this


/-! ## `lookup` against real objects: agreement with the clean-map model -/

theorem protoName_proto : protoName "__proto__" = true := by decide

theorem ne_proto_of_protoName_false {col : String}
    (h : protoName col = false) : col ≠ "__proto__" := by
  intro hc
  rw [hc] at h
  exact absurd h (by decide)

theorem lookupKeyJS_eq {col : String} (h : protoName col = false) (r : Row) :
    lookupKeyJS col r = lookupKey col r := by
  unfold lookupKeyJS lookupKey
  cases rowGet r col with
  | some v => rfl
  | none => simp [h]

theorem firstKeyRowJS_eq {col : String} (h : protoName col = false)
    (k : String) (rows : List Row) :
    firstKeyRowJS col k rows = firstKeyRow col k rows := by
  unfold firstKeyRowJS firstKeyRow
  simp only [lookupKeyJS_eq h]

theorem rowToJS_delete (r : Row) (col : String) :
    jsRowDelete (rowToJS r) col = rowToJS (rowDelete r col) := by
  unfold jsRowDelete rowDelete rowToJS
  rw [List.filter_map]
  rfl

theorem rowToJS_set (r : Row) {col : String} (h : col ≠ "__proto__")
    (v : Value) : jsRowSet (rowToJS r) col (.val v) = rowToJS (rowSet r col v) := by
  unfold jsRowSet
  rw [if_neg h]
  show alistSet (rowToJS r) col (.val v) = rowToJS (alistSet r col v)
  unfold alistSet rowToJS
  have hany : ∀ (l : List (String × Value)),
      ((l.map fun p => (p.1, JSCell.val p.2)).any fun p => decide (p.1 = col)) =
        l.any fun p => decide (p.1 = col) := by
    intro l
    induction l with
    | nil => rfl
    | cons p t ih => simp [List.any_cons, ih]
  rw [hany]
  by_cases ha : r.any (fun p => decide (p.1 = col)) = true
  · rw [if_pos ha, if_pos ha, List.map_map, List.map_map]
    apply List.map_congr_left
    intro p _
    by_cases hk : p.1 = col
    · simp [Function.comp, hk]
    · simp [Function.comp, hk]
  · rw [if_neg ha, if_neg ha, List.map_append]
    rfl

theorem rowToJS_writeback (r : Row) {col : String} (h : col ≠ "__proto__") :
    ∀ (o : Option Value),
      lookupWritebackJS (rowToJS r) col (o.map .val) =
        rowToJS (lookupWriteback r col o) := by
  intro o
  cases o with
  | none => exact rowToJS_delete r col
  | some v => exact rowToJS_set r h v

theorem lookupResolveJS_noCache (col : String) (f : Row → Option Value)
    (cache : Cache) (r : Row) :
    lookupResolveJS col f false cache r = ((f r).map .val, cache, true) := by
  unfold lookupResolveJS
  cases lookupKeyJS col r with
  | none => rfl
  | some k => rfl

theorem lookupResolveJS_eq {col : String} (f : Row → Option Value) (u : Bool)
    (cache : Cache) (r : Row) (hcol : protoName col = false)
    (hk : ∀ k, lookupKey col r = some k → protoName k = false) :
    lookupResolveJS col f u cache r =
      (((lookupResolve col f u cache r).1).map .val,
       (lookupResolve col f u cache r).2) := by
  unfold lookupResolveJS lookupResolve
  rw [lookupKeyJS_eq hcol]
  cases hk0 : lookupKey col r with
  | none => rfl
  | some k =>
    cases u with
    | false => rfl
    | true =>
      have hkp := hk k hk0
      simp only [if_true, hkp, Bool.false_eq_true, if_false]
      cases cacheGet cache k with
      | none => rfl
      | some v => rfl

theorem lookupAuxJS_bridge (col : String) (f : Row → Option Value) (u : Bool)
    (hcol : protoName col = false) :
    ∀ (rows : List Row) (cache : Cache),
      (∀ r ∈ rows, ∀ k, lookupKey col r = some k → protoName k = false) →
      lookupAuxJS col f u rows cache =
        (((lookupAux col f u rows cache).1).map rowToJS,
         (lookupAux col f u rows cache).2) := by
  intro rows
  induction rows with
  | nil => intro cache _; rfl
  | cons r rs ih =>
    intro cache hk
    have hres := lookupResolveJS_eq f u cache r hcol (hk r (by simp))
    have hstepJ : lookupAuxJS col f u (r :: rs) cache =
        (lookupWritebackJS (rowToJS r) col (lookupResolveJS col f u cache r).1 ::
          (lookupAuxJS col f u rs (lookupResolveJS col f u cache r).2.1).1,
         if (lookupResolveJS col f u cache r).2.2 then
           r :: (lookupAuxJS col f u rs (lookupResolveJS col f u cache r).2.1).2
         else (lookupAuxJS col f u rs (lookupResolveJS col f u cache r).2.1).2) :=
      rfl
    have hstep : lookupAux col f u (r :: rs) cache =
        (lookupWriteback r col (lookupResolve col f u cache r).1 ::
          (lookupAux col f u rs (lookupResolve col f u cache r).2.1).1,
         if (lookupResolve col f u cache r).2.2 then
           r :: (lookupAux col f u rs (lookupResolve col f u cache r).2.1).2
         else (lookupAux col f u rs (lookupResolve col f u cache r).2.1).2) := rfl
    rw [hstepJ, hstep, hres]
    have hihr := ih ((lookupResolve col f u cache r).2.1)
      (fun r2 hr2 => hk r2 (by simp [hr2]))
    simp only [hihr, List.map_cons]
    rw [rowToJS_writeback r (ne_proto_of_protoName_false hcol)]

theorem lookupJS_noCache (col : String) (f : Row → Option Value) :
    ∀ (rows : List Row) (cache : Cache),
      (lookupAuxJS col f false rows cache).1 =
        rows.map (fun r => lookupWritebackJS (rowToJS r) col ((f r).map .val)) := by
  intro rows
  induction rows with
  | nil => intro cache; rfl
  | cons r rs ih =>
    intro cache
    show lookupWritebackJS (rowToJS r) col (lookupResolveJS col f false cache r).1 ::
        (lookupAuxJS col f false rs (lookupResolveJS col f false cache r).2.1).1 = _
    rw [lookupResolveJS_noCache, ih, List.map_cons]

theorem lookupInvokedJS_sublist (col : String) (f : Row → Option Value)
    (u : Bool) :
    ∀ (rows : List Row) (cache : Cache),
      ((lookupAuxJS col f u rows cache).2).Sublist rows := by
  intro rows
  induction rows with
  | nil => intro cache; exact List.Sublist.refl []
  | cons r rs ih =>
    intro cache
    show (if (lookupResolveJS col f u cache r).2.2 then
        r :: (lookupAuxJS col f u rs (lookupResolveJS col f u cache r).2.1).2
      else (lookupAuxJS col f u rs (lookupResolveJS col f u cache r).2.1).2).Sublist
      (r :: rs)
    by_cases hi : (lookupResolveJS col f u cache r).2.2 = true
    · rw [if_pos hi]
      exact List.Sublist.cons₂ r (ih _)
    · rw [if_neg hi]
      exact List.Sublist.cons r (ih _)

theorem alistGet_jsDelete (r : JSRow) (k : String) :
    alistGet (jsRowDelete r k) k = none := by
  unfold jsRowDelete alistGet
  induction r with
  | nil => rfl
  | cons p t ih =>
    by_cases hp : p.1 = k
    · rw [List.filter_cons_of_neg (by simpa using hp)]
      exact ih
    · rw [List.filter_cons_of_pos (by simpa using hp)]
      rw [List.find?_cons_of_neg _ (by simpa using hp)]
      exact ih

/-! ## Helper lemmas for the claim theorems -/

/-- A serialized column element carries the column name as its tag. -/
theorem serializeXmlField_tag {nm : String} {v : Value} {fld : XmlField}
    (h : serializeXmlField nm v = some fld) : fld.tag = nm := by
  cases v with
  | vNull => exact Option.noConfusion h
  | vTagged t inner =>
    have h2 : (serializeValue inner).map
        (fun s => (⟨nm, some t, s⟩ : XmlField)) = some fld := h
    rw [Option.map_eq_some'] at h2
    obtain ⟨s2, _, h3⟩ := h2
    rw [← h3]
  | vBool b =>
    have h2 : (serializeValue (Value.vBool b)).map
        (fun s => (⟨nm, none, s⟩ : XmlField)) = some fld := h
    rw [Option.map_eq_some'] at h2
    obtain ⟨s2, _, h3⟩ := h2
    rw [← h3]
  | vNum n =>
    have h2 : (serializeValue (Value.vNum n)).map
        (fun s => (⟨nm, none, s⟩ : XmlField)) = some fld := h
    rw [Option.map_eq_some'] at h2
    obtain ⟨s2, _, h3⟩ := h2
    rw [← h3]
  | vStr s3 =>
    have h2 : (serializeValue (Value.vStr s3)).map
        (fun s => (⟨nm, none, s⟩ : XmlField)) = some fld := h
    rw [Option.map_eq_some'] at h2
    obtain ⟨s2, _, h3⟩ := h2
    rw [← h3]
  | vDate y mo d hr mi s3 ms =>
    have h2 : (serializeValue (Value.vDate y mo d hr mi s3 ms)).map
        (fun s => (⟨nm, none, s⟩ : XmlField)) = some fld := h
    rw [Option.map_eq_some'] at h2
    obtain ⟨s2, _, h3⟩ := h2
    rw [← h3]

/-- In a row with pairwise-distinct column names, membership determines the
property read. -/
theorem rowGet_mem_nodup :
    ∀ (r : Row) (p : String × Value),
      (r.map Prod.fst).Nodup → p ∈ r → rowGet r p.1 = some p.2 := by
  intro r
  induction r with
  | nil => intro p _ hp; exact absurd hp (List.not_mem_nil p)
  | cons q t ih =>
    intro p hnodup hp
    rw [List.map_cons, List.nodup_cons] at hnodup
    rcases List.mem_cons.mp hp with h1 | h1
    · subst h1
      show (List.find? (fun x => x.1 = p.1) (p :: t)).map Prod.snd = some p.2
      rw [List.find?_cons_of_pos _ (by simp)]
      rfl
    · show (List.find? (fun x => x.1 = p.1) (q :: t)).map Prod.snd = some p.2
      rw [List.find?_cons_of_neg]
      · exact ih p hnodup.2 h1
      · simp only [decide_eq_true_eq]
        intro hc
        exact hnodup.1 (by rw [hc]; exact List.mem_map_of_mem Prod.fst h1)

/-! ## The claim theorems -/

/-- C1: on every string token, type inference is a total deterministic
function of the token that applies the boolean check, then the numeric
check, then the timestamp check; the first check that matches decides, and a
token matching none of the three stays a string.  The markup loader's
`parseXmlValue` is the very same cascade as the generic `parseValue`, and
concretely "true"/"TRUE" become booleans (never numbers) while the digit
token "2020" becomes a number (never a timestamp fragment). -/
theorem claim1_inference_priority :
    ∀ s : String,
      parseXmlValue s = parseValue (.vStr s) ∧
      parseValue (.vStr s) =
        (match parseBooleans s, parseNumbers s, parseDates s with
         | some b, _, _ => Value.vBool b
         | none, some n, _ => Value.vNum n
         | none, none, some d => d
         | none, none, none => Value.vStr s) ∧
      parseBooleans "true" = some true ∧
      parseXmlValue "true" = .vBool true ∧
      parseXmlValue "TRUE" = .vBool true ∧
      parseXmlValue "2020" = .vNum (.fin 2020) := by
  intro s
  refine ⟨rfl, ?_, by with_unfolding_all rfl, by with_unfolding_all rfl,
    by with_unfolding_all rfl, by with_unfolding_all rfl⟩
  cases hb : parseBooleans s with
  | some b => simp [parseValue, hb]
  | none =>
    cases hn : parseNumbers s with
    | some n => simp [parseValue, hb, hn]
    | none =>
      cases hd : parseDates s with
      | some d => simp [parseValue, hb, hn, hd]
      | none => simp [parseValue, hb, hn, hd]

/-- C2 counterexample: the token "0x1" is accepted by the numeric check and
inferred as the number 1 (unary plus parses the hex literal), while
`parseFloat("0x1")` is 0 — so the inferred value of an accepted token is not
always `parseFloat(t)`, and a token whose decimal parse leaves the residual
suffix "x1" is not rejected. -/
theorem claim2_counterexample :
    parseNumbers "0x1" = some (.fin 1) ∧
    parseFloatL "0x1".data = .fin 0 := by
  exact ⟨by with_unfolding_all rfl, by with_unfolding_all rfl⟩

/-- C2 (amended): the numeric check accepts exactly the tokens with
`(+t - parseFloat(t) + 1) >= 0` and the inferred value is `+t` (ToNumber),
never NaN, but not necessarily `parseFloat(t)` — hex literals differ.  Every
token on which ToNumber and parseFloat agree on the same finite value is
accepted; "12abc", "42kg" and "" are rejected (parse yields NaN), and
whitespace-padded or trailing-dot decimal literals are accepted with their
numeric value. -/
theorem claim2_numeric_check :
    (∀ (s : String) (n : JSNum), parseNumbers s = some n →
      n = toNumberL s.data ∧ n ≠ .nan) ∧
    (∀ (s : String) (q : ℚ), toNumberL s.data = .fin q →
      parseFloatL s.data = .fin q → parseNumbers s = some (.fin q)) ∧
    parseNumbers "12abc" = none ∧
    parseNumbers "42kg" = none ∧
    parseNumbers "" = none ∧
    parseNumbers " 42 " = some (.fin 42) ∧
    parseNumbers "-3.5" = some (.fin (-7 / 2)) ∧
    parseNumbers "12." = some (.fin 12) := by
  refine ⟨?_, ?_, by with_unfolding_all rfl, by with_unfolding_all rfl,
    by with_unfolding_all rfl, by with_unfolding_all rfl,
    by with_unfolding_all rfl, by with_unfolding_all rfl⟩
  · intro s n hsn
    unfold parseNumbers at hsn
    by_cases hc :
        (((toNumberL s.data).sub (parseFloatL s.data)).addOne).geZero = true
    · rw [if_pos hc] at hsn
      have hn := Option.some_inj.mp hsn
      refine ⟨hn.symm, ?_⟩
      intro hnan
      rw [← hn] at hnan
      rw [hnan] at hc
      simp [JSNum.sub, JSNum.addOne, JSNum.geZero] at hc
    · rw [if_neg hc] at hsn
      exact Option.noConfusion hsn
  · intro s q h1 h2
    unfold parseNumbers
    rw [h1, h2]
    have hge : (((JSNum.fin q).sub (JSNum.fin q)).addOne).geZero = true := by
      simp only [JSNum.sub, JSNum.addOne, JSNum.geZero, sub_self, zero_add]
      norm_num
    rw [if_pos hge]

/-- C3 counterexample: the source pattern has `\.*` (any number of dots), not
`\.?`: the token "2020-01-02T03:04:05..123Z" with two dots is accepted and
parsed as a timestamp, although it does not match the claimed pattern with
at most one optional dot. -/
theorem claim3_counterexample :
    parseDates "2020-01-02T03:04:05..123Z" =
      some (.vDate 2020 0 2 3 4 5 123) ∧
    specMatchTs "2020-01-02T03:04:05..123Z".data = none := by
  exact ⟨by with_unfolding_all rfl, by with_unfolding_all rfl⟩

/-- C3 (amended): a token is inferred as a timestamp exactly when it matches
`^(\d{4})-(\d{2})-(\d{2})T(\d{2}):(\d{2}):(\d{2})\.*(\d*)Z$` — with *any
number* of dots (`\.*`, not `\.?`) before the possibly-empty fraction — and
the value is the UTC instant built from year, 1-based month converted to
0-based, day, hour, minute, second and fraction, an absent fraction
defaulting to 0 (the empty digit group reads as 0); no other token becomes a
timestamp. -/
theorem claim3_timestamp_pattern :
    ∀ (s : String) (v : Value),
      parseDates s = some v ↔
        ∃ g1 g2 g3 g4 g5 g6 dots g7 : List Char,
          s.data = g1 ++ '-' :: (g2 ++ '-' :: (g3 ++ 'T' :: (g4 ++ ':' ::
            (g5 ++ ':' :: (g6 ++ (dots ++ (g7 ++ ['Z']))))))) ∧
          g1.length = 4 ∧ g2.length = 2 ∧ g3.length = 2 ∧ g4.length = 2 ∧
          g5.length = 2 ∧ g6.length = 2 ∧
          (∀ c ∈ g1 ++ g2 ++ g3 ++ g4 ++ g5 ++ g6 ++ g7, c.isDigit = true) ∧
          (∀ c ∈ dots, c = '.') ∧
          v = .vDate (natOfDigits g1) ((natOfDigits g2 : Int) - 1)
            (natOfDigits g3) (natOfDigits g4) (natOfDigits g5)
            (natOfDigits g6) (natOfDigits g7) := by
  intro s v
  constructor
  · intro h
    unfold parseDates at h
    rw [Option.map_eq_some'] at h
    obtain ⟨t, ht, hv⟩ := h
    obtain ⟨g1, g2, g3, g4, g5, g6, dots, g7, hdec, l1, l2, l3, l4, l5, l6,
      d1, d2, d3, d4, d5, d6, hdots, d7, hteq⟩ := matchTs_sound ht
    refine ⟨g1, g2, g3, g4, g5, g6, dots, g7, hdec, l1, l2, l3, l4, l5, l6,
      ?_, hdots, ?_⟩
    · intro c hc
      simp only [List.mem_append] at hc
      rcases hc with ((((((h1 | h1) | h1) | h1) | h1) | h1) | h1)
      exacts [d1 c h1, d2 c h1, d3 c h1, d4 c h1, d5 c h1, d6 c h1, d7 c h1]
    · rw [hteq] at hv
      exact hv.symm
  · rintro ⟨g1, g2, g3, g4, g5, g6, dots, g7, hdec, l1, l2, l3, l4, l5, l6,
      hdig, hdots, hv⟩
    have d1 : ∀ c ∈ g1, c.isDigit = true :=
      fun c hc => hdig c (by simp [List.mem_append, hc])
    have d2 : ∀ c ∈ g2, c.isDigit = true :=
      fun c hc => hdig c (by simp [List.mem_append, hc])
    have d3 : ∀ c ∈ g3, c.isDigit = true :=
      fun c hc => hdig c (by simp [List.mem_append, hc])
    have d4 : ∀ c ∈ g4, c.isDigit = true :=
      fun c hc => hdig c (by simp [List.mem_append, hc])
    have d5 : ∀ c ∈ g5, c.isDigit = true :=
      fun c hc => hdig c (by simp [List.mem_append, hc])
    have d6 : ∀ c ∈ g6, c.isDigit = true :=
      fun c hc => hdig c (by simp [List.mem_append, hc])
    have d7 : ∀ c ∈ g7, c.isDigit = true :=
      fun c hc => hdig c (by simp [List.mem_append, hc])
    unfold parseDates
    rw [hdec, matchTs_complete l1 l2 l3 l4 l5 l6 d1 d2 d3 d4 d5 d6 hdots d7]
    rw [Option.map_some']
    rw [hv]

/-- C4 counterexample: the structured-text (.json) encoding does NOT omit a
null column — `JSON.stringify` writes a `null` token for it: saving the
one-row table `{c: null}` to "t.json" produces a rows array whose row object
carries the entry `"c": null`. -/
theorem claim4_counterexample :
    save ⟨none, [[("c", Value.vNull)]]⟩ "t.json" =
      .ok (.jsonFile (.jobj [("rows", .jarr [.jobj [("c", JVal.jnull)]])])) :=
  rfl

/-- C4 (amended): only the markup (.xml) encoding omits a null or absent
column — no element is written whose tag is that column (stated for rows
with pairwise-distinct column names, absent keys unconditionally) — while
the structured-text (.json) encoding writes every key of the row verbatim,
so a null value becomes a `null` token in the row's object. -/
theorem claim4_null_omission :
    ∀ (r : Row) (col : String),
      ((r.map Prod.fst).Nodup → rowGet r col = some .vNull →
        ∀ fld ∈ serializeXmlRow r, fld.tag ≠ col) ∧
      (rowGet r col = none → ∀ fld ∈ serializeXmlRow r, fld.tag ≠ col) ∧
      stringifyRow r = .jobj (r.map fun p => (p.1, stringifyValue p.2)) ∧
      ((col, Value.vNull) ∈ r →
        (col, JVal.jnull) ∈ r.map fun p => (p.1, stringifyValue p.2)) := by
  intro r col
  refine ⟨?_, ?_, rfl, ?_⟩
  · intro hnodup hget fld hfld hc
    simp only [serializeXmlRow, List.mem_filterMap] at hfld
    obtain ⟨p, hp, hser⟩ := hfld
    have hp1 : p.1 = col := by rw [← serializeXmlField_tag hser, hc]
    have h2 := rowGet_mem_nodup r p hnodup hp
    rw [hp1, hget] at h2
    have h3 : p.2 = Value.vNull := Option.some_inj.mp h2.symm
    rw [h3] at hser
    exact Option.noConfusion hser
  · intro hnone fld hfld hc
    simp only [serializeXmlRow, List.mem_filterMap] at hfld
    obtain ⟨p, hp, hser⟩ := hfld
    have hp1 : p.1 = col := by rw [← serializeXmlField_tag hser, hc]
    have h2 : (List.find? (fun x => x.1 = col) r).map Prod.snd = none := hnone
    rw [Option.map_eq_none'] at h2
    rw [List.find?_eq_none] at h2
    exact h2 p hp (by simp [hp1])
  · intro hmem
    exact List.mem_map.mpr ⟨(col, Value.vNull), hmem, rfl⟩

/-- C5 counterexample: two gaps in the claimed markup round trip.  A table
holding the number NaN does not round-trip: NaN serializes to the text
"NaN", which inference reclassifies as the *string* "NaN" on reload.  And a
boolean column — squarely inside the claimed boolean/number/timestamp/tagged
scope — named `__proto__` is silently dropped on reload, because
`rowItem[fieldName] = parsedValue` on that name invokes the inherited setter
and creates no own property. -/
theorem claim5_counterexample :
    (parseXml (serializeXml ⟨none, [[("a", Value.vNum .nan)]]⟩)).rows =
      [[("a", Value.vStr "NaN")]] ∧
    Value.vStr "NaN" ≠ Value.vNum .nan ∧
    (parseXml (serializeXml ⟨none, [[("__proto__", Value.vBool true)]]⟩)).rows =
      [[]] := by
  exact ⟨rfl, fun hcon => Value.noConfusion hcon, rfl⟩

/-- C5 (amended): a table whose rows have distinct column names none of
which is `__proto__`, holding booleans, finite numbers with a terminating
decimal expansion, normalized in-range timestamps, or tagged values with a
truthy tag around such a primitive (the `goodRow` predicate), round-trips
through the markup encoding with values and type tags preserved — the
concrete row {a:1, d:timestamp, t:{type:"acc", value:true}} reloads equal.
Values outside that set are lost, and a `__proto__` column is dropped by the
reload's property write (see the counterexample); a plain string that looks
like a boolean is reclassified on reload. -/
theorem claim5_markup_roundtrip :
    (∀ dt : Table, (∀ r ∈ dt.rows, goodRow r = true) →
      (parseXml (serializeXml dt)).rows = dt.rows) ∧
    (parseXml (serializeXml ⟨none,
      [[("a", Value.vNum (.fin 1)), ("d", Value.vDate 2020 0 2 3 4 5 6),
        ("t", Value.vTagged "acc" (.vBool true))]]⟩)).rows =
      [[("a", Value.vNum (.fin 1)), ("d", Value.vDate 2020 0 2 3 4 5 6),
        ("t", Value.vTagged "acc" (.vBool true))]] ∧
    (parseXml (serializeXml ⟨none, [[("b", Value.vStr "true")]]⟩)).rows =
      [[("b", Value.vBool true)]] := by
  refine ⟨fun dt h => parseXml_serializeXml h, by with_unfolding_all rfl,
    by with_unfolding_all rfl⟩

/-- C6 counterexample: two ways the source breaks at-most-once resolution.
With a resolver that returns undefined, the memo entry is indistinguishable
from absence, so the resolver runs twice for two rows carrying the identical
present key "1".  And a row whose key value is the string "toString" — an
`Object.prototype` member name — already passes the `!== undefined` memo
read on the *fresh, empty* memo: the resolver never runs at all and the row
is assigned the inherited `toString` function instead of any resolved
value. -/
theorem claim6_counterexample :
    lookupInvokedJS "k" (fun _ => none) true
        [[("k", Value.vNum (.fin 1))], [("k", Value.vNum (.fin 1))]] =
      [[("k", Value.vNum (.fin 1))], [("k", Value.vNum (.fin 1))]] ∧
    lookupKeyJS "k" [("k", Value.vNum (.fin 1))] = some "1" ∧
    lookupInvokedJS "k" (fun _ => some (.vBool true)) true
        [[("k", Value.vStr "toString")]] = [] ∧
    lookupJS "k" (fun _ => some (.vBool true)) true
        [[("k", Value.vStr "toString")]] =
      [[("k", JSCell.host "toString")]] := by
  exact ⟨by with_unfolding_all rfl, by with_unfolding_all rfl,
    by with_unfolding_all rfl, by with_unfolding_all rfl⟩

/-- C6 (amended): with caching enabled the memo is a real `{}` object, so
the claimed behaviour holds away from its inherited property names.  Rows
are processed in input order: the resolver-invoked rows always form a
sublist of the input.  Provided the column name and every row's memo key
avoid the `Object.prototype` member names and the resolver always returns a
defined value, the resolver runs at most once per distinct present key (the
invoked rows' keys are pairwise distinct) and every row with a present key
receives the resolver's value for the first input row carrying that key,
reused verbatim from the per-call memo, which starts empty on each call.  A
key named after an `Object.prototype` member is handed the inherited member
without the resolver ever running, and a key resolved to undefined is
re-resolved on every occurrence (see the counterexample). -/
theorem claim6_lookup_cache :
    ∀ (col : String) (f : Row → Option Value) (rows : List Row),
      (lookupInvokedJS col f true rows).Sublist rows ∧
      (protoName col = false →
        (∀ r ∈ rows, ∀ k, lookupKeyJS col r = some k → protoName k = false) →
        (∀ r, (f r).isSome = true) →
        ((lookupInvokedJS col f true rows).filterMap (lookupKeyJS col)).Nodup) ∧
      (protoName col = false →
        (∀ r ∈ rows, ∀ k, lookupKeyJS col r = some k → protoName k = false) →
        (∀ r, (f r).isSome = true) →
        ∀ (i : Nat) (r : Row) (k : String), rows[i]? = some r →
          lookupKeyJS col r = some k →
          ∃ p, firstKeyRowJS col k rows = some p ∧
            (lookupJS col f true rows)[i]? =
              some (lookupWritebackJS (rowToJS r) col ((f p).map .val))) := by
  intro col f rows
  refine ⟨lookupInvokedJS_sublist col f true rows [], ?_, ?_⟩
  · intro hcol hkeys hf
    have hkeys2 : ∀ r ∈ rows, ∀ k, lookupKey col r = some k →
        protoName k = false := by
      intro r hr k hk
      exact hkeys r hr k (by rw [lookupKeyJS_eq hcol]; exact hk)
    have hb := lookupAuxJS_bridge col f true hcol rows [] hkeys2
    have h2 : lookupInvokedJS col f true rows = (lookupAux col f true rows []).2 :=
      congrArg Prod.snd hb
    have hfun : lookupKeyJS col = lookupKey col :=
      funext (fun r2 => lookupKeyJS_eq hcol r2)
    rw [h2, hfun]
    exact (lookupAux_invoked_spec col f hf rows []).1
  · intro hcol hkeys hf i r k hi hk
    have hkeys2 : ∀ r2 ∈ rows, ∀ k2, lookupKey col r2 = some k2 →
        protoName k2 = false := by
      intro r2 hr2 k2 hk2
      exact hkeys r2 hr2 k2 (by rw [lookupKeyJS_eq hcol]; exact hk2)
    have hb := lookupAuxJS_bridge col f true hcol rows [] hkeys2
    rw [lookupKeyJS_eq hcol] at hk
    obtain ⟨p, hp1, hp2⟩ := lookupAux_result_spec col f hf rows [] []
      (fun k2 => rfl) i r k hi hk
    refine ⟨p, ?_, ?_⟩
    · rw [firstKeyRowJS_eq hcol]
      simpa using hp1
    · have h1 : lookupJS col f true rows =
          ((lookupAux col f true rows []).1).map rowToJS := congrArg Prod.fst hb
      rw [h1, List.getElem?_map, hp2, Option.map_some']
      rw [rowToJS_writeback r (ne_proto_of_protoName_false hcol) (f p)]

/-- C7 counterexample: deletion of an undefined resolution is not
unconditional.  On the row {k: "toString"} with caching enabled, the *fresh*
`{}` memo already answers `cache["toString"] !== undefined` through the
inherited `Object.prototype` member, so a resolver that always returns
undefined never runs, and the column is *assigned* the inherited function
instead of being deleted. -/
theorem claim7_counterexample :
    lookupJS "k" (fun _ => none) true [[("k", Value.vStr "toString")]] =
      [[("k", JSCell.host "toString")]] ∧
    lookupInvokedJS "k" (fun _ => none) true [[("k", Value.vStr "toString")]] =
      [] ∧
    jsRowGet [("k", JSCell.host "toString")] "k" = some (.host "toString") := by
  exact ⟨by with_unfolding_all rfl, by with_unfolding_all rfl, rfl⟩

/-- C7 (amended): write-back of the resolved value on the real row object.
Without caching the resolver runs on every row and every row becomes exactly
the write-back of its resolved value: an undefined resolution deletes the
column key (never setting a null marker), any other resolution is assigned.
With caching, a constantly-undefined resolver deletes the key from every row
*provided* the column name and the rows' memo keys avoid the
`Object.prototype` member names — a key such as "toString" is instead
assigned the inherited member without the resolver running (see the
counterexample).  The write-back primitives behave as claimed: undefined
deletes the own property (a later read of a non-prototype column name then
yields undefined), a defined value is assigned and read back. -/
theorem claim7_lookup_writeback :
    ∀ (col : String) (f : Row → Option Value) (rows : List Row) (r : JSRow)
      (v : Value),
      lookupJS col f false rows =
        rows.map (fun r2 => lookupWritebackJS (rowToJS r2) col ((f r2).map .val)) ∧
      (protoName col = false →
        (∀ r2 ∈ rows, ∀ k, lookupKeyJS col r2 = some k → protoName k = false) →
        lookupJS col (fun _ => none) true rows =
          rows.map (fun r2 => jsRowDelete (rowToJS r2) col)) ∧
      lookupWritebackJS r col none = jsRowDelete r col ∧
      (protoName col = false →
        jsRowGet (lookupWritebackJS r col none) col = none) ∧
      lookupWritebackJS r col (some (.val v)) = jsRowSet r col (.val v) ∧
      (col ≠ "__proto__" →
        jsRowGet (lookupWritebackJS r col (some (.val v))) col =
          some (.val v)) := by
  intro col f rows r v
  refine ⟨lookupJS_noCache col f rows [], ?_, rfl, ?_, rfl, ?_⟩
  · intro hcol hkeys
    have hkeys2 : ∀ r2 ∈ rows, ∀ k, lookupKey col r2 = some k →
        protoName k = false := by
      intro r2 hr2 k hk2
      exact hkeys r2 hr2 k (by rw [lookupKeyJS_eq hcol]; exact hk2)
    have hb := lookupAuxJS_bridge col (fun _ => none) true hcol rows [] hkeys2
    have h1 : lookupJS col (fun _ => none) true rows =
        ((lookupAux col (fun _ => none) true rows []).1).map rowToJS :=
      congrArg Prod.fst hb
    rw [h1, lookup_const_none_aux col rows [] (fun k => rfl), List.map_map]
    apply List.map_congr_left
    intro r2 _
    exact (rowToJS_delete r2 col).symm
  · intro hcol
    show jsRowGet (jsRowDelete r col) col = none
    simp only [jsRowGet, alistGet_jsDelete]
    rw [if_neg (by simp [hcol])]
  · intro hne
    show jsRowGet (jsRowSet r col (.val v)) col = some (.val v)
    unfold jsRowSet
    rw [if_neg hne]
    simp only [jsRowGet, alistGet_set_self]

/-- C8: the dispatcher compares the file extension lower-cased; save accepts
only .json/.xml and load only .json/.xml/.xlsx, and any other extension
fails with an error naming the (lower-cased) offending extension before any
artifact is produced — concretely "table.JSON"/"table.Xml" save,
"Table.XLSX" loads, and "table.txt" fails both ways. -/
theorem claim8_unsupported_format :
    ∀ (dt : Table) (f : String),
      (lowerStr (extname f) ≠ ".json" → lowerStr (extname f) ≠ ".xml" →
        save dt f =
          .error ("Format \"" ++ lowerStr (extname f) ++ "\" not supported")) ∧
      (lowerStr (extname f) ≠ ".json" → lowerStr (extname f) ≠ ".xml" →
        lowerStr (extname f) ≠ ".xlsx" →
        loadFormat f =
          .error ("Format \"" ++ lowerStr (extname f) ++ "\" not supported")) ∧
      save dt "table.JSON" = .ok (.jsonFile (stringifyTable dt)) ∧
      save dt "table.Xml" = .ok (.xmlFile (serializeXml dt)) ∧
      loadFormat "Table.XLSX" = .ok .xlsxKind ∧
      loadFormat "table.txt" = .error "Format \".txt\" not supported" ∧
      save dt "table.txt" = .error "Format \".txt\" not supported" := by
  intro dt f
  refine ⟨?_, ?_, rfl, rfl, rfl, rfl, rfl⟩
  · intro h1 h2
    simp only [save]
    rw [if_neg h1, if_neg h2]
  · intro h1 h2 h3
    simp only [loadFormat]
    rw [if_neg h1, if_neg h2, if_neg h3]

/-- C9 counterexample: the payload `null` parses as valid generic data and
has no rows field, yet the structured-text load returns it as-is instead of
failing — the guard `if (dt && dt.rows === undefined)` skips every falsy
parse result. -/
theorem claim9_counterexample : jsonLoad JVal.jnull = .ok RVal.rnull := rfl

/-- C9 (amended): a structured-text load whose revived payload is *truthy*
and lacks a rows field fails with "The parsed file doesn't look like a
DataTable" and returns nothing else; a payload with a rows field is
returned, and a falsy payload (such as `null`) is returned as-is without
the check firing (see the counterexample). -/
theorem claim9_malformed_table :
    ∀ v : JVal,
      (truthyR (revive v) = true → hasRowsR (revive v) = false →
        jsonLoad v = .error "The parsed file doesn't look like a DataTable") ∧
      (hasRowsR (revive v) = true → jsonLoad v = .ok (revive v)) ∧
      (truthyR (revive v) = false → jsonLoad v = .ok (revive v)) ∧
      jsonLoad (.jobj [("name", .jstr "t"), ("rows", .jarr [])]) =
        .ok (.robj [("name", .rstr "t"), ("rows", .rarr [])]) ∧
      jsonLoad (.jobj [("a", .jnum 1)]) =
        .error "The parsed file doesn't look like a DataTable" := by
  intro v
  refine ⟨?_, ?_, ?_, rfl, rfl⟩
  · intro h1 h2
    simp [jsonLoad, h1, h2]
  · intro h2
    simp [jsonLoad, h2]
  · intro h1
    simp [jsonLoad, h1]

/-- C10: the per-call memo is keyed by the *string coercion* of the lookup
key: the number 1 and the string "1" are distinct values with the same
coercion "1", so on the rows [{k:1, id:"A"}, {k:"1", id:"B"}] with a
resolver reading the id column, the second row receives the first row's
cached resolution "A" and the resolver is invoked only on the first row. -/
theorem claim10_cache_string_coercion :
    lookup "k" (fun r => match rowGet r "id" with
        | some v => some v
        | none => some .vNull) true
      [[("k", Value.vNum (.fin 1)), ("id", Value.vStr "A")],
       [("k", Value.vStr "1"), ("id", Value.vStr "B")]] =
      [[("k", Value.vStr "A"), ("id", Value.vStr "A")],
       [("k", Value.vStr "A"), ("id", Value.vStr "B")]] ∧
    lookupInvoked "k" (fun r => match rowGet r "id" with
        | some v => some v
        | none => some .vNull) true
      [[("k", Value.vNum (.fin 1)), ("id", Value.vStr "A")],
       [("k", Value.vStr "1"), ("id", Value.vStr "B")]] =
      [[("k", Value.vNum (.fin 1)), ("id", Value.vStr "A")]] ∧
    Value.vNum (.fin 1) ≠ Value.vStr "1" ∧
    jsToString (Value.vNum (.fin 1)) = jsToString (Value.vStr "1") := by
  exact ⟨by with_unfolding_all rfl, by with_unfolding_all rfl,
    fun hcon => Value.noConfusion hcon, by with_unfolding_all rfl⟩

end DataTable
